import Mathlib

/-!
Shallow embedding of the ReAgent preprocessing transform pipeline
(reagent/preprocessing/transforms.py) and proofs about its behavior.

A pipeline Record is modelled as an association list from field names to
field values (mirroring a Python dict with insertion order), and each
transform class is modelled by a structure holding its configuration plus
a function mirroring its call method.  Fallible code (Python assert,
KeyError, torch runtime errors) is modelled with Except.
-/

namespace ReAgent

/-- Record: a mapping from field name to a field value, modelling the
Python dict passed through the pipeline.  Insertion order is kept, as in
a Python dict. -/
def Record (α : Type) : Type := List (String × α)

/-- Lookup of a key in a record, modelling Python membership and
subscript access: returns the value bound to the first matching key. -/
def dget {α : Type} (d : Record α) (k : String) : Option α :=
  match d with
  | [] => none
  | (k2, v) :: rest => if k2 = k then some v else dget rest k

/-- Assignment to a record key, modelling a Python dict store: updates
the binding in place if present, otherwise appends at the end. -/
def dset {α : Type} (d : Record α) (k : String) (v : α) : Record α :=
  match d with
  | [] => [(k, v)]
  | (k2, v2) :: rest => if k2 = k then (k2, v) :: rest else (k2, v2) :: dset rest k v

/-- Deletion of a record key, modelling a Python dict del / pop. -/
def ddel {α : Type} (d : Record α) (k : String) : Record α :=
  match d with
  | [] => []
  | (k2, v2) :: rest => if k2 = k then rest else (k2, v2) :: ddel rest k

theorem dget_dset_self {α : Type} (d : Record α) (k : String) (v : α) :
    dget (dset d k v) k = some v := by
  induction d with
  | nil => simp [dget, dset]
  | cons p rest ih =>
    obtain ⟨k2, v2⟩ := p
    by_cases h : k2 = k <;> simp [dget, dset, h, ih]

theorem dget_dset_ne {α : Type} (d : Record α) (k j : String) (v : α) (h : j ≠ k) :
    dget (dset d k v) j = dget d j := by
  induction d with
  | nil => simp [dget, dset, Ne.symm h]
  | cons p rest ih =>
    obtain ⟨k2, v2⟩ := p
    by_cases h2 : k2 = k
    · subst h2
      simp [dget, dset, Ne.symm h]
    · simp [dget, dset, h2]
      by_cases h3 : k2 = j <;> simp [h3, ih]

/-! ### Tensors

A torch tensor is modelled as a finitely nested list tree of scalars.
The element type is a parameter; numeric tensors use the rationals. -/

inductive Tensor (α : Type) : Type where
  | scalar : α → Tensor α
  | vector : List (Tensor α) → Tensor α

/-- Shape of a tensor, read off the first element of each nesting level
(torch tensors are regular, so well-formed values agree on all paths). -/
def Tensor.shape {α : Type} : Tensor α → List Nat
  | .scalar _ => []
  | .vector [] => [0]
  | .vector (t :: ts) => (ts.length + 1) :: t.shape

/-- Number of dimensions of a tensor, as in torch ndim. -/
def Tensor.ndim {α : Type} (t : Tensor α) : Nat := t.shape.length

/-- Decidable regular-shape predicate: the tensor is a regular array of
the given shape. -/
def hasShape {α : Type} : List Nat → Tensor α → Bool
  | [], .scalar _ => true
  | n :: rest, .vector l => l.length == n && l.all (fun t => hasShape rest t)
  | _, _ => false

theorem shape_of_hasShape {α : Type} (s : List Nat) (t : Tensor α)
    (hpos : 0 ∉ s.dropLast) (h : hasShape s t = true) : t.shape = s := by
  induction s generalizing t with
  | nil => cases t with
    | scalar a => rfl
    | vector l => simp [hasShape] at h
  | cons n rest ih =>
    cases t with
    | scalar a => simp [hasShape] at h
    | vector l =>
      simp only [hasShape, Bool.and_eq_true, beq_iff_eq, List.all_eq_true] at h
      obtain ⟨hlen, hall⟩ := h
      cases rest with
      | nil =>
        cases l with
        | nil => simp [Tensor.shape] at hlen ⊢; omega
        | cons t0 l2 =>
          have h0 := hall t0 (by simp)
          cases t0 with
          | scalar a => simp [Tensor.shape] at hlen ⊢; omega
          | vector m => simp [hasShape] at h0
      | cons r2 rest2 =>
        have hcons : (n :: r2 :: rest2).dropLast = n :: (r2 :: rest2).dropLast := rfl
        rw [hcons, List.mem_cons] at hpos
        push_neg at hpos
        obtain ⟨hn0, hpos2⟩ := hpos
        have hn : n ≠ 0 := Ne.symm hn0
        cases l with
        | nil => simp at hlen; omega
        | cons t0 l2 =>
          have h0 : t0.shape = r2 :: rest2 :=
            ih t0 (by simpa using hpos2) (hall t0 (by simp))
          simp [Tensor.shape, h0]
          simp at hlen
          omega

/-! ### Sequence field values

Field values flowing through FixedLengthSequences, DenseNormalization and
SlateView.  The payload of a ragged sequence is a (value, presence) pair of
2-D tensors; value entries are Option-valued rationals, with none standing
for a not-a-number float. -/

/-- Payload pair of a ragged sequence entry: a 2-D value tensor (rows of
optional rationals, none modelling NaN) and a 2-D presence tensor. -/
structure VPData : Type where
  value : List (List (Option ℚ))
  presence : List (List ℚ)
deriving DecidableEq

/-- Field value variants used by the sequence-related transforms. -/
inductive SeqVal : Type where
  | ragged : List (Nat × (List ℤ × VPData)) → SeqVal
  | vp : VPData → SeqVal
  | dense : List (List ℚ) → SeqVal
  | slate : List (List (List ℚ)) → SeqVal
deriving DecidableEq

/-- Lookup in a Python dict keyed by integer sequence ids. -/
def sidGet (m : List (Nat × (List ℤ × VPData))) (sid : Nat) : Option (List ℤ × VPData) :=
  match m with
  | [] => none
  | (s, e) :: rest => if s = sid then some e else sidGet rest sid

/-! ### FixedLengthSequences (transforms.py lines 273 to 329) -/

structure FixedLengthSequences : Type where
  keys : List String
  sequence_id : Nat
  to_keys : List String
  expected_length : Option ℤ
deriving DecidableEq

/-- Constructor of FixedLengthSequences: defaults to_keys to keys and
asserts the two lists have equal length. -/
def flsInit (keys : List String) (sequence_id : Nat) (expected_length : Option ℤ)
    (to_keys : Option (List String)) : Except String FixedLengthSequences :=
  let tk := to_keys.getD keys
  if tk.length = keys.length then
    .ok ⟨keys, sequence_id, tk, expected_length⟩
  else
    .error "assert len(to_keys) == len(keys)"

/-- Model of torch.arange(0, n * step, step), which has exactly n elements
for any nonzero step. -/
def arangeStep (n : Nat) (step : ℤ) : List ℤ :=
  (List.range n).map (fun i => (i : ℤ) * step)

/-- Expected length used by one FixedLengthSequences step: the cached
stride when present; otherwise it is inferred from the gap between the
first two offsets when the batch has more than one element, or from the
first dimension of the payload value tensor when the batch has exactly
one element. -/
def flsInfer (cached : Option ℤ) (offsets : List ℤ) (value : VPData) : ℤ :=
  match cached with
  | some L => L
  | none =>
    if offsets.length > 1 then offsets.getD 1 0 - offsets.getD 0 0
    else (value.value.length : ℤ)

/-- Body of the FixedLengthSequences call loop for one (key, to_key) pair:
reads (offsets, value) at the configured sequence id, determines the
expected length, checks every offset against i * expected_length, and
writes the payload to to_key.  Returns the updated cached length and
record. -/
def flsStep (sid : Nat) (cached : Option ℤ) (key to_key : String)
    (data : Record SeqVal) : Except String (Option ℤ × Record SeqVal) :=
  match dget data key with
  | some (.ragged m) =>
    match sidGet m sid with
    | some (offsets, value) =>
      if flsInfer cached offsets value = 0 then
        .error "torch.arange: step must be nonzero"
      else
        if arangeStep offsets.length (flsInfer cached offsets value) = offsets then
          .ok (some (flsInfer cached offsets value), dset data to_key (.vp value))
        else
          .error ("Unexpected offsets for " ++ key)
    | none => .error ("KeyError: sequence_id of " ++ key)
  | some _ => .error ("cannot unpack value at " ++ key)
  | none => .error ("KeyError: " ++ key)

/-- Loop of the FixedLengthSequences call over the zipped key lists,
threading the cached expected length and the record. -/
def flsLoop (sid : Nat) : List (String × String) → Option ℤ → Record SeqVal →
    Except String (Option ℤ × Record SeqVal)
  | [], cached, data => .ok (cached, data)
  | (key, to_key) :: rest, cached, data =>
    match flsStep sid cached key to_key data with
    | .ok (cached2, data2) => flsLoop sid rest cached2 data2
    | .error e => .error e

/-- Call method of FixedLengthSequences: runs the loop over
zip(keys, to_keys) and returns the updated transform state and record. -/
def flsCall (st : FixedLengthSequences) (data : Record SeqVal) :
    Except String (FixedLengthSequences × Record SeqVal) :=
  match flsLoop st.sequence_id (st.keys.zip st.to_keys) st.expected_length data with
  | .ok (cached, data2) => .ok ({ st with expected_length := cached }, data2)
  | .error e => .error e

/-- Concrete payload used in the stride-caching scenario: twelve rows of
one feature each. -/
def vpEx : VPData :=
  ⟨List.replicate 12 [some 0], List.replicate 12 [1]⟩

/-- Transform instance of the stride-caching scenario: one key, sequence
id 1, expected_length not supplied. -/
def flsEx0 : FixedLengthSequences := ⟨["a"], 1, ["a"], none⟩

/-- First record of the stride-caching scenario: offsets 0, 4, 8. -/
def recEx1 : Record SeqVal := [("a", .ragged [(1, ([0, 4, 8], vpEx))])]

/-- Second record of the stride-caching scenario: offsets 0, 5, 10. -/
def recEx2 : Record SeqVal := [("a", .ragged [(1, ([0, 5, 10], vpEx))])]

/-- C1: a FixedLengthSequences instance built with expected_length none, on a
first call whose offsets for the configured sequence id are 0, 4, 8, infers
and caches stride 4 on the instance and succeeds; a subsequent call on the
resulting instance whose offsets are 0, 5, 10 raises the alignment
violation, because the offsets are checked against the cached stride 4
rather than a re-inferred stride 5. -/
theorem C1_fixedLengthSequences_stride_cached :
    flsCall flsEx0 recEx1 =
      .ok (⟨["a"], 1, ["a"], some 4⟩, [("a", SeqVal.vp vpEx)])
    ∧ flsCall ⟨["a"], 1, ["a"], some 4⟩ recEx2 =
      .error "Unexpected offsets for a" := by
  exact ⟨rfl, rfl⟩

/-! ### OneHotActions (transforms.py lines 165 to 182) -/

/-- Row of torch.nn.functional.one_hot with numClasses classes for a single
index: a 0/1 vector of length numClasses with a 1 exactly at the index. -/
def oneHotRow (numClasses : Nat) (i : Nat) : List Nat :=
  (List.range numClasses).map (fun j => if j = i then 1 else 0)

/-- Per-index encoding of OneHotActions: one-hot over num_actions + 1
classes, then index_select of the first num_actions columns. -/
def oneHotActionsEncode (num_actions : Nat) (i : Nat) : List Nat :=
  (oneHotRow (num_actions + 1) i).take num_actions

/-- Field values of the one-hot transform: a 1-D tensor of integer action
indices before encoding, or a 2-D 0/1 tensor after encoding. -/
inductive ActVal : Type where
  | idx : List Nat → ActVal
  | hot : List (List Nat) → ActVal
deriving DecidableEq

/-- Call loop of OneHotActions over its configured keys: each key must be
present (a missing key is a KeyError) and holds a batch of integer action
indices; the key is overwritten with the encoded batch.  Indices outside
0 .. num_actions make torch one_hot raise. -/
def oneHotActionsCall (num_actions : Nat) :
    List String → Record ActVal → Except String (Record ActVal)
  | [], data => .ok data
  | k :: rest, data =>
    match dget data k with
    | none => .error ("KeyError: " ++ k)
    | some (.hot _) => .error ("one_hot expects an index tensor at " ++ k)
    | some (.idx xs) =>
      if xs.all (fun i => i ≤ num_actions) then
        oneHotActionsCall num_actions rest
          (dset data k (.hot (xs.map (oneHotActionsEncode num_actions))))
      else
        .error ("one_hot: index out of range at " ++ k)

theorem oneHotActionsCall_frame (n : Nat) (ks : List String) (k : String)
    (da db : Record ActVal) (hnot : k ∉ ks)
    (h : oneHotActionsCall n ks da = .ok db) : dget db k = dget da k := by
  induction ks generalizing da with
  | nil =>
    simp only [oneHotActionsCall] at h
    injection h with h; rw [h]
  | cons a as ih =>
    simp only [oneHotActionsCall] at h
    split at h
    · cases h
    · cases h
    · split at h
      · have hka : k ≠ a := fun he => hnot (he ▸ List.mem_cons_self a as)
        have := ih _ (fun hm => hnot (List.mem_cons_of_mem a hm)) h
        rw [this, dget_dset_ne _ _ _ _ hka]
      · cases h

theorem oneHotActionsCall_lookup (n : Nat) (keys : List String) (k : String)
    (d d2 : Record ActVal) (xs : List Nat)
    (hnd : keys.Nodup) (hk : k ∈ keys) (hd : dget d k = some (.idx xs))
    (hok : oneHotActionsCall n keys d = .ok d2) :
    dget d2 k = some (.hot (xs.map (oneHotActionsEncode n))) := by
  induction keys generalizing d with
  | nil => cases hk
  | cons k0 rest ih =>
    simp only [oneHotActionsCall] at hok
    split at hok
    · cases hok
    · cases hok
    · rename_i ys hget
      split at hok
      · rcases List.mem_cons.mp hk with hk0 | hkrest
        · subst hk0
          have hxs : ys = xs := by
            rw [hget] at hd
            injection hd with hd2
            injection hd2
          subst hxs
          have hnotin : k ∉ rest := (List.nodup_cons.mp hnd).1
          rw [oneHotActionsCall_frame n rest k _ _ hnotin hok, dget_dset_self]
        · have hne : k ≠ k0 := by
            intro he; subst he
            exact (List.nodup_cons.mp hnd).1 hkrest
          exact ih _ ((List.nodup_cons.mp hnd).2) hkrest
            (by rw [dget_dset_ne _ _ _ _ hne]; exact hd) hok
      · cases hok

/-- C2: for every configured key, OneHotActions maps an integer index i
with i lower than num_actions to the one-hot vector of length num_actions
with a 1 at position i, and maps the sentinel index num_actions to the
all-zero vector of length num_actions; the encoding one-hots over
num_actions + 1 classes and then keeps the first num_actions columns. -/
theorem C2_oneHotActions_encoding (n i : Nat) (keys : List String) (k : String)
    (d d2 : Record ActVal) (xs : List Nat)
    (hnd : keys.Nodup) (hk : k ∈ keys) (hd : dget d k = some (.idx xs))
    (hok : oneHotActionsCall n keys d = .ok d2) (hi : i < n) :
    dget d2 k = some (.hot (xs.map (oneHotActionsEncode n)))
    ∧ oneHotActionsEncode n i = oneHotRow n i
    ∧ (oneHotRow n i).getD i 0 = 1
    ∧ (oneHotActionsEncode n i).length = n
    ∧ oneHotActionsEncode n n = List.replicate n 0 := by
  have htake : ∀ (j : Nat), oneHotActionsEncode n j =
      (List.range n).map (fun m => if m = j then 1 else 0) := by
    intro j
    unfold oneHotActionsEncode oneHotRow
    rw [← List.map_take, List.take_range, Nat.min_eq_left (Nat.le_succ n)]
  refine ⟨oneHotActionsCall_lookup n keys k d d2 xs hnd hk hd hok, ?_, ?_, ?_, ?_⟩
  · exact htake i
  · unfold oneHotRow
    rw [List.getD_eq_getElem, List.getElem_map, List.getElem_range]
    · simp
    · simpa using hi
  · rw [htake i]; simp
  · rw [htake n]
    rw [List.eq_replicate_iff]
    refine ⟨by simp, ?_⟩
    intro b hb
    rcases List.mem_map.mp hb with ⟨m, hm, hbm⟩
    have : m ≠ n := Nat.ne_of_lt (List.mem_range.mp hm)
    rw [if_neg this] at hbm
    omega

/-- Witness for C2 at num_actions 3 on the batch of indices 1 and 3: the
valid index 1 becomes the one-hot row 0,1,0 and the sentinel 3 becomes the
all-zero row. -/
theorem C2_oneHotActions_encoding_witness :
    dget [("act", ActVal.hot [[0, 1, 0], [0, 0, 0]])] "act"
      = some (.hot ([1, 3].map (oneHotActionsEncode 3)))
    ∧ oneHotActionsEncode 3 1 = oneHotRow 3 1
    ∧ (oneHotRow 3 1).getD 1 0 = 1
    ∧ (oneHotActionsEncode 3 1).length = 3
    ∧ oneHotActionsEncode 3 3 = List.replicate 3 0 :=
  C2_oneHotActions_encoding 3 1 ["act"] "act"
    [("act", .idx [1, 3])] [("act", ActVal.hot [[0, 1, 0], [0, 0, 0]])] [1, 3]
    (by decide) (by decide) (by decide) (by rfl) (by decide)

/-! ### Tensor operations shared by Cat, AppendConstant and ColumnVector -/

/-- Children of a tensor that is not a scalar. -/
def asVector {α : Type} : Tensor α → Option (List (Tensor α))
  | .vector l => some l
  | .scalar _ => none

/-- Insertion at an index of a list, modelling Python list.insert. -/
def insIdx {α : Type} (l : List α) (i : Nat) (a : α) : List α :=
  l.take i ++ a :: l.drop i

/-- Mapping of a fallible function over a list, failing when any element
fails; the Option instance of mapM, spelled out. -/
def optList {α β : Type} (f : α → Option β) : List α → Option (List β)
  | [] => some []
  | a :: as =>
    match f a, optList f as with
    | some b, some bs => some (b :: bs)
    | _, _ => none

theorem optList_some_of_all {α β : Type} {f : α → Option β} {l : List α}
    (h : ∀ x ∈ l, ∃ y, f x = some y) : ∃ lm, optList f l = some lm := by
  induction l with
  | nil => exact ⟨[], rfl⟩
  | cons a as ih =>
    obtain ⟨b, hb⟩ := h a (by simp)
    obtain ⟨bs, hbs⟩ := ih (fun x hx => h x (List.mem_cons_of_mem a hx))
    exact ⟨b :: bs, by simp [optList, hb, hbs]⟩

theorem optList_length {α β : Type} {f : α → Option β} {l : List α}
    {lm : List β} (h : optList f l = some lm) : lm.length = l.length := by
  induction l generalizing lm with
  | nil => simp only [optList, Option.some_inj] at h; simp [← h]
  | cons a as ih =>
    simp only [optList] at h
    cases ha : f a with
    | none => rw [ha] at h; cases h
    | some b =>
      rw [ha] at h
      cases has : optList f as with
      | none => rw [has] at h; cases h
      | some bs =>
        rw [has] at h
        injection h with h
        simp [← h, ih has]

theorem optList_forall_mem {α β : Type} {f : α → Option β} {l : List α}
    {lm : List β} (P : β → Prop) (h : optList f l = some lm)
    (hf : ∀ x ∈ l, ∀ y, f x = some y → P y) : ∀ y ∈ lm, P y := by
  induction l generalizing lm with
  | nil => simp only [optList, Option.some_inj] at h; simp [← h]
  | cons a as ih =>
    simp only [optList] at h
    cases ha : f a with
    | none => rw [ha] at h; cases h
    | some b =>
      rw [ha] at h
      cases has : optList f as with
      | none => rw [has] at h; cases h
      | some bs =>
        rw [has] at h
        injection h with h
        intro y hy
        rw [← h] at hy
        rcases List.mem_cons.mp hy with h1 | h2
        · exact h1 ▸ hf a (by simp) b ha
        · exact ih has (fun x hx => hf x (List.mem_cons_of_mem a hx)) y h2

/-- Model of torch.cat along a nonnegative dimension: at dimension zero the
children lists are concatenated; at a deeper dimension the tensors are
zipped childwise.  Undefined (none) on scalars or empty input. -/
def catListDim {α : Type} : Nat → List (Tensor α) → Option (Tensor α)
  | 0, ts =>
    match optList asVector ts with
    | some ls => some (.vector ls.flatten)
    | none => none
  | d + 1, ts =>
    match optList asVector ts with
    | none => none
    | some ls =>
      match ls with
      | [] => none
      | l0 :: rest =>
        if rest.all (fun l => l.length == l0.length) then
          match optList (fun i =>
              catListDim d (ls.map (fun l => l.getD i (Tensor.vector []))))
              (List.range l0.length) with
          | some cols => some (.vector cols)
          | none => none
        else none

/-- Step of torch.broadcast_shapes on one pair of sizes: equal sizes pass
through, a one is replaced by the other size, anything else fails. -/
def bstep (p : Nat × Nat) : Option Nat :=
  if p.1 = p.2 then some p.1
  else if p.1 = 1 then some p.2
  else if p.2 = 1 then some p.1
  else none

/-- Model of torch.broadcast_shapes for two shapes: align from the
trailing dimension, pad the shorter shape with ones, and require each
pair of sizes to be equal or contain a one. -/
def broadcastShapes2 (s1 s2 : List Nat) : Option (List Nat) :=
  let n := max s1.length s2.length
  let p1 := List.replicate (n - s1.length) 1 ++ s1
  let p2 := List.replicate (n - s2.length) 1 ++ s2
  optList bstep (p1.zip p2)

/-- Model of torch.broadcast_shapes over a list of shapes, folding the
binary broadcast; the empty shape broadcasts with anything. -/
def broadcastShapesList : List (List Nat) → Option (List Nat)
  | [] => some []
  | s :: rest =>
    match broadcastShapesList rest with
    | none => none
    | some acc => broadcastShapes2 acc s

/-- Model of torch Tensor.expand to a target shape of the same rank: each
dimension is either kept or replicated from size one. -/
def expandT {α : Type} : List Nat → Tensor α → Option (Tensor α)
  | [], .scalar a => some (.scalar a)
  | [], .vector _ => none
  | _ :: _, .scalar _ => none
  | n :: rest, .vector l =>
    if l.length = n then
      match optList (expandT rest) l with
      | some lm => some (.vector lm)
      | none => none
    else
      match l with
      | [c] =>
        match expandT rest c with
        | some u => some (.vector (List.replicate n u))
        | none => none
      | _ => none

/-- Index of a shape list under Python semantics, where a negative index
counts from the end. -/
def shapeAt (s : List Nat) (dim : ℤ) : Nat :=
  if dim ≥ 0 then s.getD dim.toNat 0 else s.getD (s.length - (-dim).toNat) 0

/-- Model of the helper _broadcast_tensors_for_cat (transforms.py lines
487 to 511): normalize the dimension per tensor, remove the concatenation
dimension from every shape, broadcast the remaining shapes to a common
shape, re-insert each tensor's own size at the concatenation dimension,
and expand every tensor to its final shape. -/
def broadcastTensorsForCat {α : Type} (tensors : List (Tensor α)) (dim : ℤ) :
    Option (List (Tensor α)) :=
  let dims : List Nat :=
    if dim ≥ 0 then tensors.map (fun _ => dim.toNat)
    else tensors.map (fun t => ((t.ndim : ℤ) + dim).toNat)
  let shapes := (tensors.zip dims).map (fun p => (p.1.shape).eraseIdx p.2)
  match broadcastShapesList shapes with
  | none => none
  | some broadcast_shape =>
    let final_shapes := (tensors.zip dims).map
      (fun p => insIdx broadcast_shape p.2 (shapeAt p.1.shape dim))
    optList (fun p => expandT p.2 p.1) (tensors.zip final_shapes)

/-! ### Cat (transforms.py lines 514 to 534) -/

structure CatTransform : Type where
  input_keys : List String
  output_key : String
  dim : ℤ
  broadcast : Bool

/-- Call method of Cat: gather the input tensors, broadcast them for
concatenation when the broadcast flag is set, concatenate along the
configured dimension and store the result under the output key. -/
def catCall {α : Type} (st : CatTransform) (data : Record (Tensor α)) :
    Except String (Record (Tensor α)) :=
  match optList (fun k => dget data k) st.input_keys with
  | none => .error "KeyError in Cat input keys"
  | some tensors =>
    let step2 : Except String (List (Tensor α)) :=
      if st.broadcast then
        match broadcastTensorsForCat tensors st.dim with
        | some ts => .ok ts
        | none => .error "shapes are not broadcastable"
      else .ok tensors
    match step2 with
    | .error e => .error e
    | .ok ts =>
      let d : Nat :=
        if st.dim ≥ 0 then st.dim.toNat
        else (((ts.headD (.vector [])).ndim : ℤ) + st.dim).toNat
      match catListDim d ts with
      | some t => .ok (dset data st.output_key t)
      | none => .error "torch.cat failed"

/-- Regular 3-D tensor of the given sizes whose entry at position
i, j, k is f i j k. -/
def mkT3 {α : Type} (a b c : Nat) (f : Nat → Nat → Nat → α) : Tensor α :=
  .vector ((List.range a).map (fun i =>
    .vector ((List.range b).map (fun j =>
      .vector ((List.range c).map (fun k => .scalar (f i j k)))))))

/-- Compatibility of a source size with a broadcast target size: equal, or
the source is one and gets replicated. -/
def bcompat (a b : Nat) : Prop := a = b ∨ a = 1

theorem expandT_hasShape {α : Type} (s : List Nat) (t u : Tensor α)
    (h : expandT s t = some u) : hasShape s u = true := by
  induction s generalizing t u with
  | nil =>
    cases t with
    | scalar a => simp only [expandT] at h; injection h with h; rw [← h]; rfl
    | vector l => simp [expandT] at h
  | cons n rest ih =>
    cases t with
    | scalar a => simp [expandT] at h
    | vector l =>
      simp only [expandT] at h
      by_cases hlen : l.length = n
      · rw [if_pos hlen] at h
        cases hm : optList (expandT rest) l with
        | none => rw [hm] at h; cases h
        | some lm =>
          rw [hm] at h
          injection h with h
          rw [← h]
          simp only [hasShape, Bool.and_eq_true, beq_iff_eq, List.all_eq_true]
          refine ⟨by rw [optList_length hm]; omega, ?_⟩
          exact optList_forall_mem (fun u0 => hasShape rest u0 = true) hm
            (fun x _ y hy => ih x y hy)
      · rw [if_neg hlen] at h
        match l with
        | [] => simp at h
        | [c] =>
          simp only at h
          cases hc : expandT rest c with
          | none => rw [hc] at h; cases h
          | some u0 =>
            rw [hc] at h
            injection h with h
            rw [← h]
            simp only [hasShape, Bool.and_eq_true, beq_iff_eq, List.all_eq_true]
            refine ⟨by simp, ?_⟩
            intro x hx
            rw [List.eq_of_mem_replicate hx]
            exact ih c u0 hc
        | c1 :: c2 :: cs => simp at h

theorem expandT_succeeds {α : Type} (s s2 : List Nat) (t : Tensor α)
    (ht : hasShape s t = true) (hc : List.Forall₂ bcompat s s2) :
    ∃ u, expandT s2 t = some u := by
  induction hc generalizing t with
  | nil =>
    cases t with
    | scalar a => exact ⟨.scalar a, rfl⟩
    | vector l => simp [hasShape] at ht
  | @cons a b as bs hab htl ih =>
    cases t with
    | scalar x => simp [hasShape] at ht
    | vector l =>
      simp only [hasShape, Bool.and_eq_true, beq_iff_eq, List.all_eq_true] at ht
      obtain ⟨hlen, hall⟩ := ht
      by_cases hl : l.length = b
      · obtain ⟨lm, hlm⟩ := optList_some_of_all
          (f := expandT bs) (l := l) (fun x hx => ih x (hall x hx))
        exact ⟨.vector lm, by simp [expandT, hl, hlm]⟩
      · rcases hab with hab | hab
        · omega
        · have h1 : l.length = 1 := by omega
          match l, h1 with
          | [c], _ =>
            obtain ⟨u0, hu0⟩ := ih c (hall c (by simp))
            refine ⟨.vector (List.replicate b u0), ?_⟩
            simp only [expandT]
            rw [if_neg (by simpa using hl)]
            simp [hu0]

theorem optList_cons_some {α β : Type} {f : α → Option β} {x : α} {b : β}
    {xs : List α} {bs : List β} (hx : f x = some b)
    (hxs : optList f xs = some bs) : optList f (x :: xs) = some (b :: bs) := by
  simp [optList, hx, hxs]

theorem broadcastShapes2_eq_optList (s1 s2 : List Nat) :
    broadcastShapes2 s1 s2 =
      optList bstep
        ((List.replicate (max s1.length s2.length - s1.length) 1 ++ s1).zip
         (List.replicate (max s1.length s2.length - s2.length) 1 ++ s2)) := rfl

theorem broadcastShapes2_nil_left (s : List Nat) :
    broadcastShapes2 [] s = some s := by
  have key : ∀ (l : List Nat),
      optList bstep ((List.replicate l.length 1).zip l) = some l := by
    intro l
    induction l with
    | nil => rfl
    | cons a as ih =>
      have hstep : bstep (1, a) = some a := by
        by_cases ha : (1 : Nat) = a <;> simp [bstep, ha]
      exact optList_cons_some hstep ih
  rw [broadcastShapes2_eq_optList]
  simpa using key s

theorem bstep_compat (a b c : Nat) (hx : bstep (a, b) = some c) :
    bcompat a c ∧ bcompat b c := by
  unfold bstep at hx
  by_cases hab : a = b
  · rw [if_pos hab] at hx; injection hx with hx
    exact ⟨Or.inl hx, Or.inl (hab ▸ hx)⟩
  · rw [if_neg hab] at hx
    by_cases ha1 : a = 1
    · rw [if_pos ha1] at hx; injection hx with hx
      exact ⟨Or.inr ha1, Or.inl hx⟩
    · rw [if_neg ha1] at hx
      by_cases hb1 : b = 1
      · rw [if_pos hb1] at hx; injection hx with hx
        exact ⟨Or.inl hx, Or.inr hb1⟩
      · rw [if_neg hb1] at hx; cases hx

theorem optList_bstep_compat (s1 : List Nat) : ∀ (s2 bs : List Nat),
    optList bstep (s1.zip s2) = some bs → s1.length = s2.length →
    List.Forall₂ bcompat s1 bs ∧ List.Forall₂ bcompat s2 bs := by
  induction s1 with
  | nil =>
    intro s2 bs h hlen
    cases s2 with
    | nil => simp only [List.zip_nil_right, optList, Option.some_inj] at h
             rw [← h]; exact ⟨.nil, .nil⟩
    | cons b bs2 => simp at hlen
  | cons a as ih =>
    intro s2 bs h hlen
    cases s2 with
    | nil => simp at hlen
    | cons b bs2 =>
      rw [List.zip_cons_cons] at h
      simp only [optList] at h
      cases hx : bstep (a, b) with
      | none => rw [hx] at h; cases h
      | some c =>
        rw [hx] at h
        cases hrest : optList bstep (as.zip bs2) with
        | none => rw [hrest] at h; cases h
        | some cs =>
          rw [hrest] at h
          injection h with h
          obtain ⟨ih1, ih2⟩ := ih bs2 cs hrest (by simpa using hlen)
          obtain ⟨hc1, hc2⟩ := bstep_compat a b c hx
          rw [← h]
          exact ⟨.cons hc1 ih1, .cons hc2 ih2⟩

theorem broadcastShapes2_compat (s1 s2 bs : List Nat)
    (hlen : s1.length = s2.length)
    (h : broadcastShapes2 s1 s2 = some bs) :
    List.Forall₂ bcompat s1 bs ∧ List.Forall₂ bcompat s2 bs := by
  rw [broadcastShapes2_eq_optList, hlen, Nat.max_self, Nat.sub_self] at h
  simp only [List.replicate_zero, List.nil_append] at h
  exact optList_bstep_compat s1 s2 bs h hlen

theorem insIdx_forall₂ {R : Nat → Nat → Prop} (i : Nat) (x y : Nat)
    (a b : List Nat) (hxy : R x y) (hab : List.Forall₂ R a b) :
    List.Forall₂ R (insIdx a i x) (insIdx b i y) := by
  induction i generalizing a b with
  | zero => simpa [insIdx] using List.Forall₂.cons hxy hab
  | succ n ih =>
    cases hab with
    | nil => simpa [insIdx] using List.Forall₂.cons hxy List.Forall₂.nil
    | @cons c d cs ds hcd htl =>
      simpa [insIdx] using List.Forall₂.cons hcd (by simpa [insIdx] using ih cs ds htl)

theorem insIdx_eraseIdx (s : List Nat) (d : Nat) (hd : d < s.length) :
    insIdx (s.eraseIdx d) d (s.getD d 0) = s := by
  induction s generalizing d with
  | nil => simp at hd
  | cons a as ih =>
    cases d with
    | zero => simp [insIdx, List.eraseIdx]
    | succ n =>
      have : n < as.length := by simpa using hd
      simpa [insIdx, List.eraseIdx] using ih n this

theorem broadcastTensorsForCat_pair {α : Type} (t1 t2 : Tensor α)
    (s1 s2 bs : List Nat) (d : Nat)
    (h1 : hasShape s1 t1 = true) (h2 : hasShape s2 t2 = true)
    (hlen : s1.length = s2.length) (hd : d < s1.length)
    (hp1 : 0 ∉ s1.dropLast) (hp2 : 0 ∉ s2.dropLast)
    (hbs : broadcastShapes2 (s2.eraseIdx d) (s1.eraseIdx d) = some bs) :
    ∃ u1 u2, broadcastTensorsForCat [t1, t2] (d : ℤ) = some [u1, u2]
      ∧ hasShape (insIdx bs d (s1.getD d 0)) u1 = true
      ∧ hasShape (insIdx bs d (s2.getD d 0)) u2 = true := by
  have hs1 : t1.shape = s1 := shape_of_hasShape s1 t1 hp1 h1
  have hs2 : t2.shape = s2 := shape_of_hasShape s2 t2 hp2 h2
  have hd0 : (d : ℤ) ≥ 0 := Int.natCast_nonneg d
  have htn : (d : ℤ).toNat = d := Int.toNat_natCast d
  have hd2 : d < s2.length := by omega
  have hel : (s2.eraseIdx d).length = (s1.eraseIdx d).length := by
    rw [List.length_eraseIdx, List.length_eraseIdx, if_pos hd2, if_pos hd, hlen]
  obtain ⟨hc2, hc1⟩ := optList_bstep_compat _ _ _
    (by rw [broadcastShapes2_eq_optList, hel, Nat.max_self, Nat.sub_self] at hbs
        simpa using hbs) hel
  -- compatibility of the full shapes with the final target shapes
  have hf1 : List.Forall₂ bcompat s1 (insIdx bs d (s1.getD d 0)) := by
    have := insIdx_forall₂ (R := bcompat) d (s1.getD d 0) (s1.getD d 0)
      (s1.eraseIdx d) bs (Or.inl rfl) hc1
    rwa [insIdx_eraseIdx s1 d hd] at this
  have hf2 : List.Forall₂ bcompat s2 (insIdx bs d (s2.getD d 0)) := by
    have := insIdx_forall₂ (R := bcompat) d (s2.getD d 0) (s2.getD d 0)
      (s2.eraseIdx d) bs (Or.inl rfl) hc2
    rwa [insIdx_eraseIdx s2 d (by omega)] at this
  obtain ⟨u1, hu1⟩ := expandT_succeeds s1 _ t1 h1 hf1
  obtain ⟨u2, hu2⟩ := expandT_succeeds s2 _ t2 h2 hf2
  refine ⟨u1, u2, ?_, expandT_hasShape _ _ _ hu1, expandT_hasShape _ _ _ hu2⟩
  unfold broadcastTensorsForCat
  rw [if_pos hd0]
  simp only [List.map_cons, List.map_nil, List.zip_cons_cons, List.zip_nil_right,
    htn, hs1, hs2, broadcastShapesList, broadcastShapes2_nil_left, hbs]
  simp only [shapeAt, if_pos hd0, htn]
  exact optList_cons_some hu1 (optList_cons_some hu2 rfl)

/-- C3: Cat with broadcasting enabled, applied to input fields of shapes
(10, 3, 5) and (1, 3, 3) with concatenation dimension 2, produces an output
field of shape (10, 3, 8) in which the second tensor's values are
replicated across the 10 leading entries; and in general two equal-rank
inputs are first broadcast to a common shape on every dimension except the
concatenation dimension, keeping their own size at that dimension. -/
theorem C3_cat_broadcast (f g : Nat → Nat → Nat → ℚ) (t1 t2 : Tensor ℚ)
    (s1 s2 bs : List Nat) (d : Nat) :
    (catCall ⟨["x", "y"], "z", 2, true⟩
        [("x", mkT3 10 3 5 f), ("y", mkT3 1 3 3 g)] =
      .ok [("x", mkT3 10 3 5 f), ("y", mkT3 1 3 3 g),
           ("z", mkT3 10 3 8 (fun i j k => if k < 5 then f i j k else g 0 j (k - 5)))])
    ∧ (hasShape s1 t1 = true → hasShape s2 t2 = true →
       s1.length = s2.length → d < s1.length →
       0 ∉ s1.dropLast → 0 ∉ s2.dropLast →
       broadcastShapes2 (s2.eraseIdx d) (s1.eraseIdx d) = some bs →
       ∃ u1 u2, broadcastTensorsForCat [t1, t2] (d : ℤ) = some [u1, u2]
         ∧ hasShape (insIdx bs d (s1.getD d 0)) u1 = true
         ∧ hasShape (insIdx bs d (s2.getD d 0)) u2 = true) := by
  constructor
  · rfl
  · intro h1 h2 hlen hd hp1 hp2 hbs
    exact broadcastTensorsForCat_pair t1 t2 s1 s2 bs d h1 h2 hlen hd hp1 hp2 hbs

/-- Example entries for the Cat witness. -/
def fEx (i j k : Nat) : ℚ := ((i * 100 + j * 10 + k : Nat) : ℚ)

/-- Example entries for the Cat witness, distinct from fEx. -/
def gEx (i j k : Nat) : ℚ := -((i * 100 + j * 10 + k : Nat) : ℚ) - 1

/-- Example 2-D tensor of shape (2, 3). -/
def t1Ex : Tensor ℚ :=
  .vector [.vector [.scalar 1, .scalar 2, .scalar 3],
           .vector [.scalar 4, .scalar 5, .scalar 6]]

/-- Example 2-D tensor of shape (1, 3). -/
def t2Ex : Tensor ℚ :=
  .vector [.vector [.scalar 7, .scalar 8, .scalar 9]]

/-- Witness for C3: the concrete record equality at the example entry
functions, and a successful general broadcast at shapes (2, 3) and (1, 3)
with concatenation dimension 1. -/
theorem C3_cat_broadcast_witness :
    (catCall ⟨["x", "y"], "z", 2, true⟩
        [("x", mkT3 10 3 5 fEx), ("y", mkT3 1 3 3 gEx)] =
      .ok [("x", mkT3 10 3 5 fEx), ("y", mkT3 1 3 3 gEx),
           ("z", mkT3 10 3 8 (fun i j k => if k < 5 then fEx i j k else gEx 0 j (k - 5)))])
    ∧ (∃ u1 u2, broadcastTensorsForCat [t1Ex, t2Ex] ((1 : Nat) : ℤ) = some [u1, u2]
        ∧ hasShape (insIdx [2] 1 (([2, 3] : List Nat).getD 1 0)) u1 = true
        ∧ hasShape (insIdx [2] 1 (([1, 3] : List Nat).getD 1 0)) u2 = true) :=
  ⟨(C3_cat_broadcast fEx gEx t1Ex t2Ex [2, 3] [1, 3] [2] 1).1,
   (C3_cat_broadcast fEx gEx t1Ex t2Ex [2, 3] [1, 3] [2] 1).2
     (by decide) (by decide) (by decide) (by decide)
     (by decide) (by decide) (by decide)⟩

/-! ### Generic per-key record loop, shared by key-wise transforms -/

/-- Loop over configured keys shared by the key-wise tensor transforms:
a missing key is a KeyError, the per-key operation may fail (torch runtime
error), and its result overwrites the key. -/
def perKeyCall {α : Type} (f : α → Option α) :
    List String → Record α → Except String (Record α)
  | [], data => .ok data
  | k :: rest, data =>
    match dget data k with
    | none => .error ("KeyError: " ++ k)
    | some v =>
      match f v with
      | none => .error ("runtime error at " ++ k)
      | some v2 => perKeyCall f rest (dset data k v2)

theorem perKeyCall_frame {α : Type} (f : α → Option α) (ks : List String)
    (k : String) (da db : Record α) (hnot : k ∉ ks)
    (h : perKeyCall f ks da = .ok db) : dget db k = dget da k := by
  induction ks generalizing da with
  | nil =>
    simp only [perKeyCall] at h
    injection h with h; rw [h]
  | cons a as ih =>
    simp only [perKeyCall] at h
    split at h
    · cases h
    · split at h
      · cases h
      · have hka : k ≠ a := fun he => hnot (he ▸ List.mem_cons_self a as)
        have := ih _ (fun hm => hnot (List.mem_cons_of_mem a hm)) h
        rw [this, dget_dset_ne _ _ _ _ hka]

theorem perKeyCall_lookup {α : Type} (f : α → Option α) (ks : List String)
    (k : String) (da db : Record α) (v : α)
    (hnd : ks.Nodup) (hk : k ∈ ks) (hv : dget da k = some v)
    (h : perKeyCall f ks da = .ok db) :
    ∃ v2, f v = some v2 ∧ dget db k = some v2 := by
  induction ks generalizing da with
  | nil => cases hk
  | cons a as ih =>
    simp only [perKeyCall] at h
    split at h
    · cases h
    · rename_i v0 hget
      split at h
      · cases h
      · rename_i v2 hf
        rcases List.mem_cons.mp hk with hk0 | hkrest
        · subst hk0
          have hv0 : v0 = v := by rw [hget] at hv; injection hv
          subst hv0
          refine ⟨v2, hf, ?_⟩
          have hnotin : k ∉ as := (List.nodup_cons.mp hnd).1
          rw [perKeyCall_frame f as k _ _ hnotin h, dget_dset_self]
        · have hne : k ≠ a := by
            intro he; subst he
            exact (List.nodup_cons.mp hnd).1 hkrest
          exact ih _ ((List.nodup_cons.mp hnd).2) hkrest
            (by rw [dget_dset_ne _ _ _ _ hne]; exact hv) h

/-! ### AppendConstant (transforms.py lines 383 to 399) -/

/-- Tensor filled with a constant, of the given shape; used for
torch.ones and for the product of a scalar with torch.ones. -/
def fullT (c : ℚ) : List Nat → Tensor ℚ
  | [] => .scalar c
  | n :: rest => .vector (List.replicate n (fullT c rest))

/-- Model of torch.ones over a shape. -/
def onesT (s : List Nat) : Tensor ℚ := fullT 1 s

mutual
/-- Scalar multiplication of a tensor, modelling const times a tensor. -/
def smulT (c : ℚ) : Tensor ℚ → Tensor ℚ
  | .scalar x => .scalar (c * x)
  | .vector l => .vector (smulList c l)

/-- Scalar multiplication mapped over tensor children. -/
def smulList (c : ℚ) : List (Tensor ℚ) → List (Tensor ℚ)
  | [] => []
  | t :: ts => smulT c t :: smulList c ts
end

mutual
/-- Model of torch unsqueeze at the last position: wraps every scalar leaf
in a singleton vector, turning shape s into s concatenated with 1. -/
def unsqueezeLast : Tensor ℚ → Tensor ℚ
  | .scalar x => .vector [.scalar x]
  | .vector l => .vector (unsqueezeList l)

/-- Unsqueeze mapped over tensor children. -/
def unsqueezeList : List (Tensor ℚ) → List (Tensor ℚ)
  | [] => []
  | t :: ts => unsqueezeLast t :: unsqueezeList ts
end

/-- Body of AppendConstant for one tensor: build the extra column as
const times torch.ones of the shape without its last dimension, unsqueeze
it at the end, and concatenate it before the value along the configured
dimension (negative dimensions count from the end, as torch.cat does). -/
def appendConstantOne (const : ℚ) (dim : ℤ) (value : Tensor ℚ) : Option (Tensor ℚ) :=
  let extra_col := unsqueezeLast (smulT const (onesT value.shape.dropLast))
  let d : Nat := if dim ≥ 0 then dim.toNat else ((extra_col.ndim : ℤ) + dim).toNat
  catListDim d [extra_col, value]

structure AppendConstant : Type where
  keys : List String
  dim : ℤ
  const : ℚ

/-- Call method of AppendConstant: apply the per-tensor body to every
configured key. -/
def appendConstantCall (st : AppendConstant) :
    Record (Tensor ℚ) → Except String (Record (Tensor ℚ)) :=
  perKeyCall (appendConstantOne st.const st.dim) st.keys

/-- Prepending a constant entry along the last dimension, stated as the
specification describes it: at the deepest level the constant is put in
front of the row, higher levels map over children.  The first argument is
the shape prefix above the last dimension. -/
def prependLastSpec (c : ℚ) : List Nat → Tensor ℚ → Tensor ℚ
  | [], .vector l => .vector (.scalar c :: l)
  | _ :: rest, .vector l => .vector (l.map (prependLastSpec c rest))
  | _, t => t

theorem smulList_replicate (c : ℚ) (n : Nat) (t : Tensor ℚ) :
    smulList c (List.replicate n t) = List.replicate n (smulT c t) := by
  induction n with
  | zero => rfl
  | succ k ih => simp only [List.replicate_succ, smulList, ih]

theorem unsqueezeList_replicate (n : Nat) (t : Tensor ℚ) :
    unsqueezeList (List.replicate n t) = List.replicate n (unsqueezeLast t) := by
  induction n with
  | zero => rfl
  | succ k ih => simp only [List.replicate_succ, unsqueezeList, ih]

theorem smul_ones (c : ℚ) (s : List Nat) : smulT c (onesT s) = fullT c s := by
  induction s with
  | nil => simp [onesT, fullT, smulT]
  | cons n rest ih =>
    simp only [onesT, fullT, smulT, smulList_replicate] at ih ⊢
    rw [ih]

theorem unsq_full_cons (c : ℚ) (n : Nat) (s : List Nat) :
    unsqueezeLast (fullT c (n :: s)) =
      .vector (List.replicate n (unsqueezeLast (fullT c s))) := by
  simp only [fullT, unsqueezeLast, unsqueezeList_replicate]

theorem unsq_full_shape (c : ℚ) (s : List Nat) (hpos : 0 ∉ s) :
    (unsqueezeLast (fullT c s)).shape = s ++ [1] := by
  induction s with
  | nil => rfl
  | cons n rest ih =>
    rw [unsq_full_cons]
    cases n with
    | zero => exact absurd (by simp) hpos
    | succ k =>
      simp only [List.replicate_succ, Tensor.shape, List.length_replicate]
      rw [ih (fun hm => hpos (List.mem_cons_of_mem _ hm))]
      simp

theorem optList_eq_some_map {α β : Type} (f : α → Option β) (g : α → β)
    (l : List α) (h : ∀ x ∈ l, f x = some (g x)) :
    optList f l = some (l.map g) := by
  induction l with
  | nil => rfl
  | cons a as ih =>
    exact optList_cons_some (h a (by simp))
      (ih (fun x hx => h x (List.mem_cons_of_mem a hx)))

theorem map_getD_range {α β : Type} (g : α → β) (d0 : α) (l : List α) :
    (List.range l.length).map (fun i => g (l.getD i d0)) = l.map g := by
  induction l with
  | nil => rfl
  | cons a as ih =>
    rw [List.length_cons, List.range_succ_eq_map]
    simp only [List.map_cons, List.map_map]
    rw [show ((fun i => g ((a :: as).getD i d0)) ∘ Nat.succ) =
        (fun i => g (as.getD i d0)) from rfl]
    simp only [List.getD_cons_zero, ih, List.map_cons]

theorem getD_replicate_lt {α : Type} (a d0 : α) (n i : Nat) (h : i < n) :
    (List.replicate n a).getD i d0 = a := by
  induction n generalizing i with
  | zero => omega
  | succ k ih =>
    cases i with
    | zero => rfl
    | succ j => simpa [List.replicate_succ, List.getD_cons_succ] using ih j (by omega)

theorem appendConstant_cat (c : ℚ) (m : Nat) (s : List Nat) :
    ∀ (t : Tensor ℚ), hasShape (s ++ [m]) t = true → 0 ∉ s →
    catListDim s.length [unsqueezeLast (fullT c s), t] =
      some (prependLastSpec c s t)
    ∧ hasShape (s ++ [m + 1]) (prependLastSpec c s t) = true := by
  induction s with
  | nil =>
    intro t ht _
    cases t with
    | scalar x => simp [hasShape] at ht
    | vector l =>
      simp only [List.nil_append, hasShape, Bool.and_eq_true, beq_iff_eq,
        List.all_eq_true] at ht
      obtain ⟨hlen, hall⟩ := ht
      constructor
      · simp [catListDim, optList, asVector, fullT, unsqueezeLast,
          unsqueezeList, prependLastSpec]
      · simp only [List.nil_append, hasShape, Bool.and_eq_true, beq_iff_eq,
          List.all_eq_true, prependLastSpec]
        refine ⟨by simp [hlen], ?_⟩
        intro x hx
        rcases List.mem_cons.mp hx with h1 | h2
        · rw [h1]; rfl
        · exact hall x h2
  | cons n s2 ih =>
    intro t ht hpos
    cases t with
    | scalar x => simp [hasShape] at ht
    | vector l =>
      simp only [List.cons_append, hasShape, Bool.and_eq_true, beq_iff_eq,
        List.all_eq_true] at ht
      obtain ⟨hlen, hall⟩ := ht
      have hn : n ≠ 0 := fun h0 => hpos (by simp [h0])
      have hpos2 : 0 ∉ s2 := fun hm => hpos (List.mem_cons_of_mem _ hm)
      have hstep : ∀ i ∈ List.range n,
          (fun i => catListDim s2.length
            ([List.replicate n (unsqueezeLast (fullT c s2)), l].map
              (fun lst => lst.getD i (Tensor.vector [])))) i =
          some ((fun i => prependLastSpec c s2 (l.getD i (Tensor.vector []))) i) := by
        intro i hi
        have hin : i < n := List.mem_range.mp hi
        have hgetrep : (List.replicate n (unsqueezeLast (fullT c s2))).getD i
            (Tensor.vector []) = unsqueezeLast (fullT c s2) :=
          getD_replicate_lt _ _ n i hin
        have hmem : l.getD i (Tensor.vector []) ∈ l := by
          rw [List.getD_eq_getElem l (Tensor.vector []) (by omega)]
          exact List.getElem_mem _
        simp only [List.map_cons, List.map_nil, hgetrep]
        exact (ih (l.getD i (Tensor.vector [])) (hall _ hmem) hpos2).1
      constructor
      · show catListDim (s2.length + 1) _ = _
        simp only [catListDim, unsq_full_cons, optList, asVector]
        rw [show ([l] : List (List (Tensor ℚ))).all
            (fun l2 => l2.length == (List.replicate n
              (unsqueezeLast (fullT c s2))).length) = true by
          simp [hlen]]
        simp only [if_true]
        rw [List.length_replicate,
          optList_eq_some_map _ _ (List.range n) hstep]
        rw [show (List.range n).map
            (fun i => prependLastSpec c s2 (l.getD i (Tensor.vector []))) =
            (List.range l.length).map
            (fun i => prependLastSpec c s2 (l.getD i (Tensor.vector []))) by
          rw [hlen]]
        rw [map_getD_range]
        rfl
      · simp only [List.cons_append, hasShape, Bool.and_eq_true, beq_iff_eq,
          List.all_eq_true, prependLastSpec]
        refine ⟨by simp [hlen], ?_⟩
        intro x hx
        rcases List.mem_map.mp hx with ⟨y, hy, hxy⟩
        rw [← hxy]
        exact (ih y (hall y hy) hpos2).2

/-- Example 2-D tensor of shape (2, 1) for the AppendConstant
counterexample. -/
def tC6 : Tensor ℚ := .vector [.vector [.scalar 5], .vector [.scalar 6]]

/-- C6 counterexample: on a tensor of shape (2, 1) with configured
dimension 0, AppendConstant returns a tensor of shape (4, 1), not
(2 + 1, 1): the extra column is always built along the last dimension
(shape (2, 1) here), so concatenating it along dimension 0 adds two rows
instead of one. -/
theorem C6_appendConstant_counterexample :
    (appendConstantCall ⟨["w"], 0, 1⟩ [("w", tC6)]).map
        (fun d => (dget d "w").map Tensor.shape) = .ok (some [4, 1])
    ∧ Tensor.shape tC6 = [2, 1]
    ∧ (some [4, 1] : Option (List Nat)) ≠ some [2 + 1, 1] :=
  ⟨rfl, rfl, by decide⟩

/-- C6 amended: for every tensor field and the last dimension (the
configured dimension -1, which is the default), AppendConstant prepends
one constant-valued entry along that dimension: the output equals the
specification-side prependLastSpec, whose size along the last dimension is
the input size plus one with all other dimensions unchanged, whose first
entry along the last dimension is the constant everywhere, and whose
remaining entries are the original tensor. -/
theorem C6_appendConstant_lastDim (c : ℚ) (m : Nat) (s : List Nat)
    (t : Tensor ℚ) (k : String) (d : Record (Tensor ℚ))
    (ht : hasShape (s ++ [m]) t = true) (hpos : 0 ∉ s) :
    appendConstantOne c (-1) t = some (prependLastSpec c s t)
    ∧ hasShape (s ++ [m + 1]) (prependLastSpec c s t) = true
    ∧ (dget d k = some t →
       appendConstantCall ⟨[k], -1, c⟩ d =
         .ok (dset d k (prependLastSpec c s t))) := by
  have hposf : 0 ∉ (s ++ [m]).dropLast := by rwa [List.dropLast_concat]
  have hsh : t.shape = s ++ [m] := shape_of_hasShape _ _ hposf ht
  have hmain := appendConstant_cat c m s t ht hpos
  have hnd : (unsqueezeLast (fullT c s)).ndim = s.length + 1 := by
    unfold Tensor.ndim
    rw [unsq_full_shape c s hpos]
    simp
  have hone : appendConstantOne c (-1) t = some (prependLastSpec c s t) := by
    simp only [appendConstantOne]
    rw [hsh, List.dropLast_concat, smul_ones]
    rw [if_neg (by decide), hnd]
    rw [show (((s.length + 1 : Nat) : ℤ) + -1).toNat = s.length by omega]
    exact hmain.1
  refine ⟨hone, hmain.2, ?_⟩
  intro hget
  unfold appendConstantCall perKeyCall
  rw [hget]
  simp only [hone]
  rfl

/-- Example 2-D tensor of shape (2, 2) for the AppendConstant witness. -/
def t2dEx : Tensor ℚ :=
  .vector [.vector [.scalar 1, .scalar 2], .vector [.scalar 3, .scalar 4]]

/-- Witness for the amended C6 at a (2, 2) tensor with constant 7. -/
theorem C6_appendConstant_lastDim_witness :
    appendConstantOne 7 (-1) t2dEx = some (prependLastSpec 7 [2] t2dEx)
    ∧ hasShape [2, 3] (prependLastSpec 7 [2] t2dEx) = true
    ∧ appendConstantCall ⟨["w"], -1, 7⟩ [("w", t2dEx)] =
        .ok (dset [("w", t2dEx)] "w" (prependLastSpec 7 [2] t2dEx)) := by
  obtain ⟨h1, h2, h3⟩ := C6_appendConstant_lastDim 7 2 [2] t2dEx "w"
    [("w", t2dEx)] (by decide) (by decide)
  exact ⟨h1, h2, h3 rfl⟩

/-! ### ColumnVector (transforms.py lines 185 to 215) -/

mutual
/-- Flattening of a tensor into its list of scalar entries, in row-major
order; the underlying order of torch reshape. -/
def Tensor.flat : Tensor ℚ → List ℚ
  | .scalar x => [x]
  | .vector l => flatList l

/-- Flattening mapped over tensor children. -/
def flatList : List (Tensor ℚ) → List ℚ
  | [] => []
  | t :: ts => Tensor.flat t ++ flatList ts
end

/-- Model of tensor.reshape(-1, 1): the flattened entries, one per row. -/
def reshapeCol (t : Tensor ℚ) : Tensor ℚ :=
  .vector (t.flat.map (fun x => .vector [.scalar x]))

/-- Field values accepted by ColumnVector: a (value, presence) tuple, a
Python list (turned into a 1-D array), a raw tensor, or any unsupported
runtime type. -/
inductive CVal : Type where
  | vp : Tensor ℚ → Tensor ℚ → CVal
  | lst : List ℚ → CVal
  | tens : Tensor ℚ → CVal
  | unsupported : CVal

/-- Shape assertion and reshape of ColumnVector: the extracted value must
be 1-D, or 2-D with second dimension one, and is then reshaped to a
column. -/
def colCheck (value : Tensor ℚ) : Except String (Tensor ℚ) :=
  if value.ndim = 1 ∨ (value.ndim = 2 ∧ value.shape.getD 1 0 = 1) then
    .ok (reshapeCol value)
  else .error "Invalid shape"

/-- Body of the ColumnVector call for one field: tuples contribute their
value component, lists become 1-D arrays, tensors pass through, and any
other representation raises NotImplementedError. -/
def columnVectorOne : CVal → Except String (Tensor ℚ)
  | .vp v _ => colCheck v
  | .lst l => colCheck (.vector (l.map Tensor.scalar))
  | .tens v => colCheck v
  | .unsupported => .error "NotImplementedError"

theorem hasShape_nil_scalar (x : Tensor ℚ) (h : hasShape [] x = true) :
    ∃ q, x = .scalar q := by
  cases x with
  | scalar q => exact ⟨q, rfl⟩
  | vector l => simp [hasShape] at h

theorem hasShape_one_wrap (x : Tensor ℚ) (h : hasShape [1] x = true) :
    ∃ q, x = .vector [.scalar q] := by
  cases x with
  | scalar q => simp [hasShape] at h
  | vector l =>
    simp only [hasShape, Bool.and_eq_true, beq_iff_eq, List.all_eq_true] at h
    obtain ⟨hlen, hall⟩ := h
    match l, hlen with
    | [y], _ =>
      obtain ⟨q, hq⟩ := hasShape_nil_scalar y (hall y (by simp))
      exact ⟨q, by rw [hq]⟩

theorem flat_wrap (l : List (Tensor ℚ)) (h : ∀ x ∈ l, hasShape [1] x = true) :
    (flatList l).map (fun x => Tensor.vector [Tensor.scalar x]) = l := by
  induction l with
  | nil => rfl
  | cons x rest ih =>
    obtain ⟨q, hq⟩ := hasShape_one_wrap x (h x (by simp))
    subst hq
    have ihr := ih (fun y hy => h y (List.mem_cons_of_mem _ hy))
    simp [flatList, Tensor.flat, ihr]

theorem flat_scalars_length (l : List (Tensor ℚ))
    (h : ∀ x ∈ l, hasShape [] x = true) : (flatList l).length = l.length := by
  induction l with
  | nil => rfl
  | cons x rest ih =>
    obtain ⟨q, hq⟩ := hasShape_nil_scalar x (h x (by simp))
    subst hq
    have ihr := ih (fun y hy => h y (List.mem_cons_of_mem _ hy))
    simp [flatList, Tensor.flat, ihr]

/-- C7: ColumnVector is idempotent on already-column-shaped input: a
tensor of shape (n, 1) is returned unchanged, so applying the transform
twice yields the same tensor as applying it once; a 1-D tensor is coerced
to shape (n, 1); and a tensor of any other shape is rejected with the
shape assertion. -/
theorem C7_columnVector_idempotent (n : Nat) (t u w : Tensor ℚ) (s : List Nat) :
    (hasShape [n, 1] t = true →
      columnVectorOne (.tens t) = .ok t
      ∧ (columnVectorOne (.tens t)).bind (fun r => columnVectorOne (.tens r)) =
          columnVectorOne (.tens t))
    ∧ (hasShape [n] u = true →
      columnVectorOne (.tens u) = .ok (reshapeCol u)
      ∧ hasShape [n, 1] (reshapeCol u) = true)
    ∧ (hasShape s w = true → 0 ∉ s.dropLast →
      s.length ≠ 1 → ¬(s.length = 2 ∧ s.getD 1 0 = 1) →
      columnVectorOne (.tens w) = .error "Invalid shape") := by
  refine ⟨?_, ?_, ?_⟩
  · intro ht
    have hok : columnVectorOne (.tens t) = .ok t := by
      cases t with
      | scalar x => simp [hasShape] at ht
      | vector l =>
        simp only [hasShape, Bool.and_eq_true, beq_iff_eq, List.all_eq_true] at ht
        obtain ⟨hlen, hall⟩ := ht
        have hre : reshapeCol (.vector l) = .vector l := by
          unfold reshapeCol
          rw [show Tensor.flat (.vector l) = flatList l from rfl, flat_wrap l hall]
        cases l with
        | nil =>
          simp only [columnVectorOne, colCheck]
          rw [if_pos (Or.inl (show (Tensor.vector ([] : List (Tensor ℚ))).ndim = 1
            from rfl)), hre]
        | cons t0 l2 =>
          obtain ⟨q, hq⟩ := hasShape_one_wrap t0 (hall t0 (by simp))
          have hcond : (Tensor.vector (t0 :: l2)).ndim = 2
              ∧ (Tensor.vector (t0 :: l2)).shape.getD 1 0 = 1 := by
            subst hq
            constructor <;> simp [Tensor.ndim, Tensor.shape]
          simp only [columnVectorOne, colCheck]
          rw [if_pos (Or.inr hcond), hre]
    refine ⟨hok, ?_⟩
    rw [hok]
    show columnVectorOne (CVal.tens t) = Except.ok t
    exact hok
  · intro hu
    cases u with
    | scalar x => simp [hasShape] at hu
    | vector l =>
      simp only [hasShape, Bool.and_eq_true, beq_iff_eq, List.all_eq_true] at hu
      obtain ⟨hlen, hall⟩ := hu
      have hok : columnVectorOne (.tens (.vector l)) = .ok (reshapeCol (.vector l)) := by
        cases l with
        | nil =>
          simp only [columnVectorOne, colCheck]
          rw [if_pos (Or.inl (show (Tensor.vector ([] : List (Tensor ℚ))).ndim = 1
            from rfl))]
        | cons t0 l2 =>
          obtain ⟨q, hq⟩ := hasShape_nil_scalar t0 (hall t0 (by simp))
          have hcond : (Tensor.vector (t0 :: l2)).ndim = 1 := by
            subst hq
            rfl
          simp only [columnVectorOne, colCheck]
          rw [if_pos (Or.inl hcond)]
      refine ⟨hok, ?_⟩
      unfold reshapeCol
      simp only [hasShape, Bool.and_eq_true, beq_iff_eq, List.all_eq_true]
      constructor
      · rw [List.length_map,
          show Tensor.flat (.vector l) = flatList l from rfl,
          flat_scalars_length l hall]
        omega
      · intro x hx
        rcases List.mem_map.mp hx with ⟨y, _, hxy⟩
        rw [← hxy]
        rfl
  · intro hw hpos h1 h2
    have hsh : w.shape = s := shape_of_hasShape s w hpos hw
    have hnd : w.ndim = s.length := by rw [Tensor.ndim, hsh]
    simp only [columnVectorOne]
    cases w with
    | scalar x =>
      simp only [colCheck]
      rw [if_neg]
      intro hcon
      rcases hcon with hcon | hcon
      · exact h1 (by rw [← hnd, hcon])
      · exact h2 ⟨by rw [← hnd, hcon.1], by rw [← hsh]; exact hcon.2⟩
    | vector l =>
      simp only [colCheck]
      rw [if_neg]
      intro hcon
      rcases hcon with hcon | hcon
      · exact h1 (by rw [← hnd, hcon])
      · exact h2 ⟨by rw [← hnd, hcon.1], by rw [← hsh]; exact hcon.2⟩

/-- Column-shaped example tensor of shape (2, 1). -/
def tColEx : Tensor ℚ := .vector [.vector [.scalar 8], .vector [.scalar 9]]

/-- One-dimensional example tensor of length 2. -/
def uColEx : Tensor ℚ := .vector [.scalar 3, .scalar 4]

/-- Example tensor of the rejected shape (2, 2). -/
def wColEx : Tensor ℚ :=
  .vector [.vector [.scalar 1, .scalar 2], .vector [.scalar 3, .scalar 4]]

/-- Witness for C7 at concrete tensors of shapes (2, 1), (2,) and (2, 2). -/
theorem C7_columnVector_idempotent_witness :
    (columnVectorOne (.tens tColEx) = .ok tColEx
      ∧ (columnVectorOne (.tens tColEx)).bind
          (fun r => columnVectorOne (.tens r)) = columnVectorOne (.tens tColEx))
    ∧ (columnVectorOne (.tens uColEx) = .ok (reshapeCol uColEx)
      ∧ hasShape [2, 1] (reshapeCol uColEx) = true)
    ∧ columnVectorOne (.tens wColEx) = .error "Invalid shape" :=
  ⟨(C7_columnVector_idempotent 2 tColEx uColEx wColEx [2, 2]).1 (by decide),
   (C7_columnVector_idempotent 2 tColEx uColEx wColEx [2, 2]).2.1 (by decide),
   (C7_columnVector_idempotent 2 tColEx uColEx wColEx [2, 2]).2.2
     (by decide) (by decide) (by decide) (by decide)⟩

/-! ### Heap of records

Rename and Filter build and return a new dict.  To state that they do not
mutate the record they receive, records live in a heap (a list of records
addressed by index, modelling Python object identity), and each Python
dict operation acts on one heap cell. -/

/-- Heap of records, addressed by allocation index. -/
abbrev Heap (α : Type) : Type := List (Record α)

/-- Dereference of a heap address. -/
def hget {α : Type} (h : Heap α) (r : Nat) : Record α := h.getD r []

/-- In-place update of the record at a heap address. -/
def hset {α : Type} (h : Heap α) (r : Nat) (d : Record α) : Heap α := h.set r d

/-- Allocation of a fresh record, as done by dict() or a dict literal:
returns the extended heap and the fresh address. -/
def halloc {α : Type} (h : Heap α) (d : Record α) : Heap α × Nat :=
  (h ++ [d], h.length)

theorem hget_hset_ne {α : Type} (h : Heap α) (r r2 : Nat) (d : Record α)
    (hne : r ≠ r2) : hget (hset h r2 d) r = hget h r := by
  unfold hget hset
  induction h generalizing r r2 with
  | nil => simp
  | cons a as ih =>
    cases r2 with
    | zero =>
      cases r with
      | zero => omega
      | succ j => simp [List.set]
    | succ j2 =>
      cases r with
      | zero => simp [List.set]
      | succ j => simpa [List.set] using ih j j2 (by omega)

theorem hget_halloc {α : Type} (h : Heap α) (r : Nat) (d : Record α)
    (hr : r < h.length) : hget (h ++ [d]) r = hget h r := by
  unfold hget
  rw [List.getD_append _ _ _ _ hr]

/-! ### Rename (transforms.py lines 537 to 550) -/

structure Rename : Type where
  old_names : List String
  new_names : List String
deriving DecidableEq

/-- Constructor of Rename: stores the two lists.  The source performs no
validation, so construction never fails. -/
def renameInit (old_names new_names : List String) : Except String Rename :=
  .ok ⟨old_names, new_names⟩

/-- Loop of Rename over zip(old_names, new_names): each step pops the old
key from the new dict (KeyError when absent) and stores the value under
the new key. -/
def renameLoop {α : Type} :
    List (String × String) → Heap α → Nat → Except String (Heap α × Nat)
  | [], h, nd => .ok (h, nd)
  | (o, n) :: rest, h, nd =>
    match dget (hget h nd) o with
    | none => .error ("KeyError: " ++ o)
    | some v => renameLoop rest (hset h nd (dset (ddel (hget h nd) o) n v)) nd

/-- Call method of Rename: copies the incoming dict into a fresh one and
renames inside the copy, returning the copy. -/
def renameCall {α : Type} (st : Rename) (h : Heap α) (data : Nat) :
    Except String (Heap α × Nat) :=
  let p := halloc h (hget h data)
  renameLoop (st.old_names.zip st.new_names) p.1 p.2

/-! ### Filter (transforms.py lines 553 to 580) -/

structure Filter : Type where
  keep_keys : Option (List String)
  remove_keys : Option (List String)
deriving DecidableEq

/-- Constructor of Filter: asserts that exactly one of keep_keys and
remove_keys is supplied. -/
def filterInit (keep_keys remove_keys : Option (List String)) :
    Except String Filter :=
  if keep_keys.isNone ≠ remove_keys.isNone then .ok ⟨keep_keys, remove_keys⟩
  else .error "assert (keep_keys is None) != (remove_keys is None)"

/-- Keep-mode loop of Filter: copies each keep-listed key present in the
source record into the fresh dict, silently skipping missing ones. -/
def filterKeepLoop {α : Type} :
    List String → Nat → Heap α → Nat → Heap α × Nat
  | [], _, h, nd => (h, nd)
  | k :: ks, data, h, nd =>
    match dget (hget h data) k with
    | none => filterKeepLoop ks data h nd
    | some v => filterKeepLoop ks data (hset h nd (dset (hget h nd) k v)) nd

/-- Remove-mode loop of Filter: deletes each remove-listed key from the
copied dict when present. -/
def filterRemoveLoop {α : Type} :
    List String → Heap α → Nat → Heap α × Nat
  | [], h, nd => (h, nd)
  | k :: ks, h, nd =>
    match dget (hget h nd) k with
    | none => filterRemoveLoop ks h nd
    | some _ => filterRemoveLoop ks (hset h nd (ddel (hget h nd) k)) nd

/-- Call method of Filter: a truthy (non-empty) keep list builds a fresh
dict from the kept keys; otherwise the incoming dict is copied and the
remove-listed keys are deleted from the copy.  A falsy keep list with no
remove list is the Python TypeError of iterating None. -/
def filterCall {α : Type} (st : Filter) (h : Heap α) (data : Nat) :
    Except String (Heap α × Nat) :=
  match st.keep_keys with
  | some (k0 :: ks) =>
    let p := halloc h []
    .ok (filterKeepLoop (k0 :: ks) data p.1 p.2)
  | _ =>
    match st.remove_keys with
    | none => .error "TypeError: NoneType object is not iterable"
    | some rem =>
      let p := halloc h (hget h data)
      .ok (filterRemoveLoop rem p.1 p.2)

theorem renameLoop_frame {α : Type} (pairs : List (String × String)) :
    ∀ (h h2 : Heap α) (nd nd2 r : Nat), r ≠ nd →
    renameLoop pairs h nd = .ok (h2, nd2) →
    hget h2 r = hget h r ∧ nd2 = nd := by
  induction pairs with
  | nil =>
    intro h h2 nd nd2 r hne hok
    simp only [renameLoop] at hok
    injection hok with hok
    injection hok with hok1 hok2
    exact ⟨by rw [← hok1], hok2.symm⟩
  | cons p rest ih =>
    intro h h2 nd nd2 r hne hok
    obtain ⟨o, n⟩ := p
    simp only [renameLoop] at hok
    split at hok
    · cases hok
    · obtain ⟨hh, hn⟩ := ih _ _ _ _ _ hne hok
      rw [hget_hset_ne _ _ _ _ hne] at hh
      exact ⟨hh, hn⟩

theorem filterKeepLoop_frame {α : Type} (ks : List String) :
    ∀ (data : Nat) (h : Heap α) (nd r : Nat), r ≠ nd →
    hget (filterKeepLoop ks data h nd).1 r = hget h r
    ∧ (filterKeepLoop ks data h nd).2 = nd := by
  induction ks with
  | nil => intro data h nd r hne; exact ⟨rfl, rfl⟩
  | cons k rest ih =>
    intro data h nd r hne
    simp only [filterKeepLoop]
    split
    · exact ih data h nd r hne
    · obtain ⟨hh, hn⟩ := ih data _ nd r hne
      rw [hh, hget_hset_ne _ _ _ _ hne]
      exact ⟨rfl, hn⟩

theorem filterRemoveLoop_frame {α : Type} (ks : List String) :
    ∀ (h : Heap α) (nd r : Nat), r ≠ nd →
    hget (filterRemoveLoop ks h nd).1 r = hget h r
    ∧ (filterRemoveLoop ks h nd).2 = nd := by
  induction ks with
  | nil => intro h nd r hne; exact ⟨rfl, rfl⟩
  | cons k rest ih =>
    intro h nd r hne
    simp only [filterRemoveLoop]
    split
    · exact ih h nd r hne
    · obtain ⟨hh, hn⟩ := ih _ nd r hne
      rw [hh, hget_hset_ne _ _ _ _ hne]
      exact ⟨rfl, hn⟩

/-- C10: Filter and Rename never mutate the record they receive: both
build and return a freshly allocated mapping, and after a call the record
at the incoming address still holds exactly its prior key-value pairs.
The returned address is the fresh allocation, distinct from the input. -/
theorem C10_filter_rename_no_mutation {α : Type} (stR : Rename) (stF : Filter)
    (h h2 h3 : Heap α) (data nd2 nd3 : Nat) (hlt : data < h.length) :
    (renameCall stR h data = .ok (h2, nd2) →
      hget h2 data = hget h data ∧ nd2 = h.length)
    ∧ (filterCall stF h data = .ok (h3, nd3) →
      hget h3 data = hget h data ∧ nd3 = h.length) := by
  have hne : data ≠ h.length := by omega
  constructor
  · intro hok
    simp only [renameCall, halloc] at hok
    obtain ⟨hh, hn⟩ := renameLoop_frame _ _ _ _ _ _ hne hok
    rw [hget_halloc h data _ hlt] at hh
    exact ⟨hh, hn⟩
  · intro hok
    simp only [filterCall, halloc] at hok
    split at hok
    · rename_i hd tl heq
      injection hok with hok
      obtain ⟨hh, hn⟩ := filterKeepLoop_frame (hd :: tl) data
        (h ++ ([[]] : Heap α)) h.length data hne
      rw [hok] at hh hn
      rw [hget_halloc h data _ hlt] at hh
      exact ⟨hh, hn⟩
    · split at hok
      · cases hok
      · rename_i rem heq
        injection hok with hok
        obtain ⟨hh, hn⟩ := filterRemoveLoop_frame rem
          (h ++ [hget h data]) h.length data hne
        rw [hok] at hh hn
        rw [hget_halloc h data _ hlt] at hh
        exact ⟨hh, hn⟩

/-- Witness for C10 on a one-record heap holding the mapping a maps to 1:
renaming a to b and filtering out a both leave the original record intact
and return the fresh address 1. -/
theorem C10_filter_rename_no_mutation_witness :
    (hget [[("a", 1)], [("b", 1)]] 0 = hget [[("a", (1 : Nat))]] 0
      ∧ 1 = List.length [[("a", (1 : Nat))]])
    ∧ (hget [[("a", 1)], []] 0 = hget [[("a", (1 : Nat))]] 0
      ∧ 1 = List.length [[("a", (1 : Nat))]]) :=
  ⟨(C10_filter_rename_no_mutation ⟨["a"], ["b"]⟩ ⟨none, some ["a"]⟩
      [[("a", 1)]] [[("a", 1)], [("b", 1)]] [[("a", 1)], []] 0 1 1
      (by decide)).1 rfl,
   (C10_filter_rename_no_mutation ⟨["a"], ["b"]⟩ ⟨none, some ["a"]⟩
      [[("a", 1)]] [[("a", 1)], [("b", 1)]] [[("a", 1)], []] 0 1 1
      (by decide)).2 rfl⟩

/-- C5 counterexample: constructing Rename with old-name list of length 2
and new-name list of length 1 raises no error at construction, and a
subsequent call happily processes the record, renaming only the first old
name (zip truncates to the shorter list). -/
theorem C5_rename_counterexample :
    renameInit ["a", "b"] ["c"] = .ok ⟨["a", "b"], ["c"]⟩
    ∧ renameCall (α := Nat) ⟨["a", "b"], ["c"]⟩ [[("a", 1), ("b", 2)]] 0 =
        .ok ([[("a", 1), ("b", 2)], [("b", 2), ("c", 1)]], 1) :=
  ⟨rfl, rfl⟩

theorem zip_take_min {α β : Type} (l1 : List α) :
    ∀ (l2 : List β), l1.zip l2 =
      (l1.take (min l1.length l2.length)).zip (l2.take (min l1.length l2.length)) := by
  induction l1 with
  | nil => intro l2; simp
  | cons a as ih =>
    intro l2
    cases l2 with
    | nil => simp
    | cons b bs =>
      simp only [List.length_cons]
      rw [show min (as.length + 1) (bs.length + 1) = min as.length bs.length + 1
        by omega]
      simp only [List.take_succ_cons, List.zip_cons_cons]
      rw [← ih bs]

/-- C5 amended: constructing a Rename transform with old-name and new-name
lists of unequal length raises no error at construction time; at call
time the names are paired positionally up to the shorter list length and
the extra names are silently ignored. -/
theorem C5_rename_unequal_lengths {α : Type} (old_names new_names : List String)
    (h : Heap α) (data : Nat) :
    renameInit old_names new_names = .ok ⟨old_names, new_names⟩
    ∧ renameCall ⟨old_names, new_names⟩ h data =
        renameCall
          ⟨old_names.take (min old_names.length new_names.length),
           new_names.take (min old_names.length new_names.length)⟩ h data := by
  refine ⟨rfl, ?_⟩
  unfold renameCall
  rw [show (⟨old_names, new_names⟩ : Rename).old_names.zip
      (⟨old_names, new_names⟩ : Rename).new_names = old_names.zip new_names
    from rfl]
  rw [zip_take_min old_names new_names]

/-! ### DenseNormalization (transforms.py lines 85 to 125) -/

/-- The normalization collaborator object, opaque: all the transform can
observe is which normalization parameters it was built from. -/
structure PreprocessorObj (ν : Type) : Type where
  normalization_params : ν
deriving DecidableEq

structure DenseNormalization (ν : Type) : Type where
  keys : List String
  normalization_data : ν
  _preprocessor : Option (PreprocessorObj ν)
deriving DecidableEq

/-- Constructor of DenseNormalization: the preprocessor is deliberately
not built here (delayed so the transform stays pickleable). -/
def denseNormalizationInit {ν : Type} (keys : List String)
    (normalization_data : ν) : DenseNormalization ν :=
  ⟨keys, normalization_data, none⟩

/-- Zeroing of not-a-number entries in the value tensor, modelling
value[torch.isnan(value)] = 0. -/
def nanZeroValue (v : List (List (Option ℚ))) : List (List ℚ) :=
  v.map (fun row => row.map (fun x => x.getD 0))

/-- Zeroing of presence entries at not-a-number value positions,
modelling presence[torch.isnan(value)] = 0. -/
def nanZeroPresence (v : List (List (Option ℚ))) (p : List (List ℚ)) :
    List (List ℚ) :=
  List.zipWith
    (fun vrow prow => List.zipWith (fun x q => if x.isNone then 0 else q) vrow prow)
    v p

/-- Per-key body of the DenseNormalization call: the field must be a
(value, presence) pair; not-a-number entries are zeroed in both tensors
and the preprocessor output replaces the field. -/
def dnPerKey {ν : Type}
    (applyPre : PreprocessorObj ν → List (List ℚ) → List (List ℚ) → List (List ℚ))
    (pobj : PreprocessorObj ν) : SeqVal → Option SeqVal
  | .vp vpd => some (.dense (applyPre pobj (nanZeroValue vpd.value)
      (nanZeroPresence vpd.value vpd.presence)))
  | _ => none

/-- Call method of DenseNormalization: builds the preprocessor from the
stored normalization data on first call, stores it on the instance, and
normalizes every configured key. -/
def dnCall {ν : Type}
    (applyPre : PreprocessorObj ν → List (List ℚ) → List (List ℚ) → List (List ℚ))
    (st : DenseNormalization ν) (data : Record SeqVal) :
    Except String (DenseNormalization ν × Record SeqVal) :=
  let pobj :=
    match st._preprocessor with
    | some p => p
    | none => ⟨st.normalization_data⟩
  match perKeyCall (dnPerKey applyPre pobj) st.keys data with
  | .ok d2 => .ok ({ st with _preprocessor := some pobj }, d2)
  | .error e => .error e

/-! ### MapIDListFeatures (transforms.py lines 128 to 162) -/

/-- The sparse-encoding collaborator object, opaque: all the transform
can observe is which feature configuration it was built from. -/
structure SparsePreprocessorObj : Type where
  cfg_id2name : List (Nat × String)
deriving DecidableEq

/-- Model of make_sparse_preprocessor: builds the collaborator from the
feature configuration. -/
def makeSparsePreprocessor (id2name : List (Nat × String)) :
    SparsePreprocessorObj :=
  ⟨id2name⟩

structure MapIDListFeatures : Type where
  id_list_keys : List String
  id_score_list_keys : List String
  feature_config_id2name : List (Nat × String)
  sparse_preprocessor : SparsePreprocessorObj
deriving DecidableEq

/-- Constructor of MapIDListFeatures: asserts the two key sets are
disjoint and immediately builds the sparse preprocessor (there is no
deferred state for it in the source). -/
def mapIDListFeaturesInit (id_list_keys id_score_list_keys : List String)
    (id2name : List (Nat × String)) : Except String MapIDListFeatures :=
  if id_list_keys.all (fun k => k ∉ id_score_list_keys) then
    .ok ⟨id_list_keys, id_score_list_keys, id2name,
         makeSparsePreprocessor id2name⟩
  else
    .error "assert set(id_list_keys).intersection(set(id_score_list_keys)) == set()"

/-- Field values seen by MapIDListFeatures: a raw sparse dict (opaque
payload δ), an encoded tensor (opaque ε), Python None, or any other
representation. -/
inductive SpVal (δ ε : Type) : Type where
  | dictv : δ → SpVal δ ε
  | encv : ε → SpVal δ ε
  | nonev : SpVal δ ε
  | otherv : SpVal δ ε
deriving DecidableEq

/-- Loop of the MapIDListFeatures call: a key is set to None when the
configuration has no vocabulary or the key is absent; otherwise the value
must be a dict and is encoded with the id-list or id-score-list entry
point depending on which key list the key belongs to. -/
def mapIDListLoop {δ ε : Type} (encId encScore : δ → ε)
    (id2name : List (Nat × String)) (idKeys : List String) :
    List String → Record (SpVal δ ε) → Except String (Record (SpVal δ ε))
  | [], d => .ok d
  | k :: rest, d =>
    if id2name = [] ∨ (dget d k).isNone = true then
      mapIDListLoop encId encScore id2name idKeys rest (dset d k .nonev)
    else
      match dget d k with
      | some (.dictv dd) =>
        if k ∈ idKeys then
          mapIDListLoop encId encScore id2name idKeys rest
            (dset d k (.encv (encId dd)))
        else
          mapIDListLoop encId encScore id2name idKeys rest
            (dset d k (.encv (encScore dd)))
      | _ => .error ("assert isinstance(data[k], dict): " ++ k)

/-- Call method of MapIDListFeatures: loops over the concatenation of the
id-list keys and the id-score-list keys. -/
def mapIDListCall {δ ε : Type} (st : MapIDListFeatures)
    (encId encScore : δ → ε) (data : Record (SpVal δ ε)) :
    Except String (Record (SpVal δ ε)) :=
  mapIDListLoop encId encScore st.feature_config_id2name st.id_list_keys
    (st.id_list_keys ++ st.id_score_list_keys) data

/-- C4 counterexample: a freshly constructed MapIDListFeatures instance
already holds the constructed sparse preprocessor — make_sparse_preprocessor
is invoked inside the constructor, and the class has no not-yet-built
state for it, contradicting the claim that the sparse-encoder object has
not been built before the first call. -/
theorem C4_mapIDList_eager_counterexample :
    mapIDListFeaturesInit ["il"] ["sl"] [(1, "f")] =
      .ok ⟨["il"], ["sl"], [(1, "f")], makeSparsePreprocessor [(1, "f")]⟩ := rfl

/-- C4 amended: DenseNormalization constructs its normalization object
lazily: the constructor leaves it absent, the first call builds it from
the stored normalization data and caches it on the instance, and a call
on an instance that already holds a preprocessor keeps that same object.
MapIDListFeatures instead constructs its sparse preprocessor eagerly at
construction time, as the counterexample records. -/
theorem C4_lazy_dense_eager_sparse (ν : Type) (keys ilk islk : List String)
    (nd : ν) (id2name : List (Nat × String))
    (applyPre : PreprocessorObj ν → List (List ℚ) → List (List ℚ) → List (List ℚ))
    (st st2 st3 : DenseNormalization ν) (p : PreprocessorObj ν)
    (d d2 d3 : Record SeqVal) (m : MapIDListFeatures) :
    (denseNormalizationInit keys nd)._preprocessor = none
    ∧ (dnCall applyPre (denseNormalizationInit keys nd) d = .ok (st2, d2) →
        st2._preprocessor = some ⟨nd⟩)
    ∧ (st._preprocessor = some p → dnCall applyPre st d = .ok (st3, d3) →
        st3._preprocessor = some p)
    ∧ (mapIDListFeaturesInit ilk islk id2name = .ok m →
        m.sparse_preprocessor = makeSparsePreprocessor id2name) := by
  refine ⟨rfl, ?_, ?_, ?_⟩
  · intro hok
    simp only [dnCall, denseNormalizationInit] at hok
    split at hok
    · injection hok with hok
      injection hok with hok1 hok2
      rw [← hok1]
    · cases hok
  · intro hp hok
    simp only [dnCall, hp] at hok
    split at hok
    · injection hok with hok
      injection hok with hok1 hok2
      rw [← hok1]
    · cases hok
  · intro hok
    simp only [mapIDListFeaturesInit] at hok
    split at hok
    · injection hok with hok
      rw [← hok]
    · cases hok

/-- Example record for the lazy-construction witness. -/
def dnRecEx : Record SeqVal := [("x", .vp ⟨[[some 1]], [[1]]⟩)]

/-- Witness for the amended C4: a first call builds the preprocessor from
normalization data 0, a call on an instance already holding preprocessor 5
keeps it, and construction of MapIDListFeatures already contains the built
sparse preprocessor. -/
theorem C4_lazy_dense_eager_sparse_witness :
    (denseNormalizationInit (ν := Nat) ["x"] 0)._preprocessor = none
    ∧ (⟨["x"], 0, some ⟨0⟩⟩ : DenseNormalization Nat)._preprocessor = some ⟨0⟩
    ∧ (⟨["x"], 0, some ⟨5⟩⟩ : DenseNormalization Nat)._preprocessor = some ⟨5⟩
    ∧ (⟨["il"], ["sl"], [(1, "f")],
        makeSparsePreprocessor [(1, "f")]⟩ : MapIDListFeatures).sparse_preprocessor =
        makeSparsePreprocessor [(1, "f")] := by
  obtain ⟨h1, h2, h3, h4⟩ := C4_lazy_dense_eager_sparse Nat ["x"] ["il"] ["sl"]
    0 [(1, "f")] (fun _ v _ => v)
    ⟨["x"], 0, some ⟨5⟩⟩ ⟨["x"], 0, some ⟨0⟩⟩ ⟨["x"], 0, some ⟨5⟩⟩ ⟨5⟩
    dnRecEx [("x", .dense [[1]])] [("x", .dense [[1]])]
    ⟨["il"], ["sl"], [(1, "f")], makeSparsePreprocessor [(1, "f")]⟩
  exact ⟨h1, h2 rfl, h3 rfl rfl, h4 rfl⟩

theorem mapIDListLoop_frame {δ ε : Type} (encId encScore : δ → ε)
    (id2name : List (Nat × String)) (idKeys : List String) (ks : List String) :
    ∀ (d d2 : Record (SpVal δ ε)),
    mapIDListLoop encId encScore id2name idKeys ks d = .ok d2 →
    ∀ j, j ∉ ks → dget d2 j = dget d j := by
  induction ks with
  | nil =>
    intro d d2 hok j _
    simp only [mapIDListLoop] at hok
    injection hok with hok
    rw [hok]
  | cons k rest ih =>
    intro d d2 hok j hj
    have hjk : j ≠ k := fun he => hj (he ▸ List.mem_cons_self k rest)
    have hjr : j ∉ rest := fun hm => hj (List.mem_cons_of_mem k hm)
    simp only [mapIDListLoop] at hok
    split at hok
    · rw [ih _ _ hok j hjr, dget_dset_ne _ _ _ _ hjk]
    · split at hok
      · split at hok
        · rw [ih _ _ hok j hjr, dget_dset_ne _ _ _ _ hjk]
        · rw [ih _ _ hok j hjr, dget_dset_ne _ _ _ _ hjk]
      · cases hok

theorem mapIDListLoop_ok_absent {δ ε : Type} (encId encScore : δ → ε)
    (id2name : List (Nat × String)) (idKeys : List String) (ks : List String) :
    ∀ (d : Record (SpVal δ ε)), ks.Nodup →
    (∀ k ∈ ks, ∀ v, dget d k = some v → ∃ dd, v = SpVal.dictv dd) →
    ∃ d2, mapIDListLoop encId encScore id2name idKeys ks d = .ok d2
      ∧ ∀ k ∈ ks, (dget d k).isNone = true → dget d2 k = some .nonev := by
  induction ks with
  | nil => intro d _ _; exact ⟨d, rfl, by simp⟩
  | cons k rest ih =>
    intro d hnd hall
    have hknr : k ∉ rest := (List.nodup_cons.mp hnd).1
    have hndr : rest.Nodup := (List.nodup_cons.mp hnd).2
    have hrest : ∀ (w : SpVal δ ε), ∀ k2 ∈ rest, ∀ v,
        dget (dset d k w) k2 = some v → ∃ dd, v = SpVal.dictv dd := by
      intro w k2 hk2 v hv
      have hne : k2 ≠ k := fun he => hknr (he ▸ hk2)
      rw [dget_dset_ne _ _ _ _ hne] at hv
      exact hall k2 (List.mem_cons_of_mem k hk2) v hv
    by_cases hc : id2name = [] ∨ (dget d k).isNone = true
    · obtain ⟨d2, hok, habs⟩ := ih (dset d k .nonev) hndr (hrest _)
      refine ⟨d2, ?_, ?_⟩
      · simp only [mapIDListLoop]
        rw [if_pos hc]
        exact hok
      · intro k2 hk2 hnone
        rcases List.mem_cons.mp hk2 with hk0 | hkr
        · subst hk0
          rw [mapIDListLoop_frame _ _ _ _ _ _ _ hok k2 hknr, dget_dset_self]
        · have hne : k2 ≠ k := fun he => hknr (he ▸ hkr)
          exact habs k2 hkr (by rwa [dget_dset_ne _ _ _ _ hne])
    · push_neg at hc
      obtain ⟨hname, hsome⟩ := hc
      cases hd : dget d k with
      | none => rw [hd] at hsome; simp at hsome
      | some v =>
        obtain ⟨dd, hdd⟩ := hall k (by simp) v hd
        subst hdd
        by_cases hmem : k ∈ idKeys
        · obtain ⟨d2, hok, habs⟩ := ih (dset d k (.encv (encId dd))) hndr (hrest _)
          refine ⟨d2, ?_, ?_⟩
          · simp only [mapIDListLoop]
            rw [if_neg (by rw [hd]; simp [hname]), hd]
            show (if k ∈ idKeys
                then mapIDListLoop encId encScore id2name idKeys rest
                  (dset d k (.encv (encId dd)))
                else mapIDListLoop encId encScore id2name idKeys rest
                  (dset d k (.encv (encScore dd)))) = Except.ok d2
            rw [if_pos hmem]
            exact hok
          · intro k2 hk2 hnone
            rcases List.mem_cons.mp hk2 with hk0 | hkr
            · subst hk0; rw [hd] at hnone; simp at hnone
            · have hne : k2 ≠ k := fun he => hknr (he ▸ hkr)
              exact habs k2 hkr (by rwa [dget_dset_ne _ _ _ _ hne])
        · obtain ⟨d2, hok, habs⟩ := ih (dset d k (.encv (encScore dd))) hndr (hrest _)
          refine ⟨d2, ?_, ?_⟩
          · simp only [mapIDListLoop]
            rw [if_neg (by rw [hd]; simp [hname]), hd]
            show (if k ∈ idKeys
                then mapIDListLoop encId encScore id2name idKeys rest
                  (dset d k (.encv (encId dd)))
                else mapIDListLoop encId encScore id2name idKeys rest
                  (dset d k (.encv (encScore dd)))) = Except.ok d2
            rw [if_neg hmem]
            exact hok
          · intro k2 hk2 hnone
            rcases List.mem_cons.mp hk2 with hk0 | hkr
            · subst hk0; rw [hd] at hnone; simp at hnone
            · have hne : k2 ≠ k := fun he => hknr (he ▸ hkr)
              exact habs k2 hkr (by rwa [dget_dset_ne _ _ _ _ hne])

theorem mapIDListLoop_empty_vocab {δ ε : Type} (encId encScore : δ → ε)
    (idKeys : List String) (ks : List String) :
    ∀ (d : Record (SpVal δ ε)),
    ∃ d2, mapIDListLoop encId encScore [] idKeys ks d = .ok d2
      ∧ ∀ k ∈ ks, dget d2 k = some .nonev := by
  induction ks with
  | nil => intro d; exact ⟨d, rfl, by simp⟩
  | cons k rest ih =>
    intro d
    obtain ⟨d2, hok, hall⟩ := ih (dset d k .nonev)
    refine ⟨d2, ?_, ?_⟩
    · simp only [mapIDListLoop]
      rw [if_pos (Or.inl trivial)]
      exact hok
    · intro k2 hk2
      rcases List.mem_cons.mp hk2 with hk0 | hkr
      · subst hk0
        by_cases hin : k2 ∈ rest
        · exact hall k2 hin
        · rw [mapIDListLoop_frame _ _ _ _ _ _ _ hok k2 hin, dget_dset_self]
      · exact hall k2 hkr

/-- C8: MapIDListFeatures never raises a missing-field error for a
configured sparse key: when every present configured key holds a sparse
dict, the call succeeds and every configured key absent from the record
is set to None — also when the configuration declares a vocabulary; and
when the configuration declares no vocabulary, the call succeeds and
every configured key is overwritten with None even if present with
data. -/
theorem C8_mapIDList_missing_and_empty_vocab {δ ε : Type}
    (encId encScore : δ → ε) (ilk islk : List String)
    (id2name : List (Nat × String)) (d : Record (SpVal δ ε))
    (hnd : (ilk ++ islk).Nodup) :
    ((∀ k ∈ ilk ++ islk, ∀ v, dget d k = some v → ∃ dd, v = SpVal.dictv dd) →
      ∃ d2, mapIDListCall ⟨ilk, islk, id2name, makeSparsePreprocessor id2name⟩
          encId encScore d = .ok d2
        ∧ ∀ k ∈ ilk ++ islk, (dget d k).isNone = true →
            dget d2 k = some .nonev)
    ∧ (id2name = [] →
      ∃ d2, mapIDListCall ⟨ilk, islk, id2name, makeSparsePreprocessor id2name⟩
          encId encScore d = .ok d2
        ∧ ∀ k ∈ ilk ++ islk, dget d2 k = some .nonev) := by
  constructor
  · intro hall
    exact mapIDListLoop_ok_absent encId encScore id2name ilk (ilk ++ islk)
      d hnd hall
  · intro hname
    subst hname
    exact mapIDListLoop_empty_vocab encId encScore ilk (ilk ++ islk) d

/-- Witness for C8 with one id-list key absent from the record and one
id-score-list key present as a dict, over natural-number payloads. -/
theorem C8_mapIDList_witness :
    (∃ d2, mapIDListCall (δ := Nat) (ε := Nat)
        ⟨["il"], ["sl"], [(1, "f")], makeSparsePreprocessor [(1, "f")]⟩
        (fun x => x + 1) (fun x => x + 2) [("sl", .dictv 7)] = .ok d2
      ∧ ∀ k ∈ ["il"] ++ ["sl"],
          (dget [("sl", SpVal.dictv (ε := Nat) 7)] k).isNone = true →
          dget d2 k = some .nonev)
    ∧ (∃ d2, mapIDListCall (δ := Nat) (ε := Nat)
        ⟨["il"], ["sl"], [], makeSparsePreprocessor []⟩
        (fun x => x + 1) (fun x => x + 2) [("sl", .dictv 7)] = .ok d2
      ∧ ∀ k ∈ ["il"] ++ ["sl"], dget d2 k = some .nonev) :=
  ⟨(C8_mapIDList_missing_and_empty_vocab (fun x => x + 1) (fun x => x + 2)
      ["il"] ["sl"] [(1, "f")] [("sl", .dictv 7)] (by decide)).1
    (by intro k hk v hv
        simp only [List.cons_append, List.nil_append, List.mem_cons,
          List.not_mem_nil, or_false] at hk
        rcases hk with h1 | h1 <;> subst h1
        · rw [show dget [("sl", SpVal.dictv (δ := Nat) (ε := Nat) 7)] "il" =
              none from rfl] at hv
          cases hv
        · rw [show dget [("sl", SpVal.dictv (δ := Nat) (ε := Nat) 7)] "sl" =
              some (SpVal.dictv 7) from rfl] at hv
          injection hv with hv
          exact ⟨7, hv.symm⟩),
   (C8_mapIDList_missing_and_empty_vocab (fun x => x + 1) (fun x => x + 2)
      ["il"] ["sl"] [] [("sl", .dictv 7)] (by decide)).2 rfl⟩

/-! ### SlateView (transforms.py lines 332 to 350) and the composite
FixedLengthSequenceDenseNormalization (lines 353 to 380) -/

/-- Structural chunking helper with an explicit fuel argument. -/
def chunkAux : Nat → Nat → List (List ℚ) → List (List (List ℚ))
  | 0, _, _ => []
  | _ + 1, _, [] => []
  | fuel + 1, s, row :: rows =>
    ((row :: rows).take s) :: chunkAux fuel s ((row :: rows).drop s)

/-- Grouping of consecutive rows into chunks of the slate size, the
row-major semantics of view(-1, slate_size, dim) on a 2-D tensor. -/
def chunkRows (s : Nat) (rows : List (List ℚ)) : List (List (List ℚ)) :=
  if s = 0 then [] else chunkAux rows.length s rows

structure SlateView : Type where
  keys : List String
  slate_size : Option ℤ

/-- Per-key body of SlateView: the field must be a 2-D dense tensor whose
row count is a positive multiple of the slate size; it is reshaped to a
3-D tensor with the slate size as middle dimension.  A missing or
non-integer slate size is a torch error. -/
def svPerKey (slate_size : Option ℤ) : SeqVal → Option SeqVal
  | .dense rows =>
    match slate_size with
    | some s =>
      if 0 < s ∧ rows.length % s.toNat = 0 then
        some (.slate (chunkRows s.toNat rows))
      else none
    | none => none
  | _ => none

/-- Call method of SlateView over its configured keys. -/
def svCall (st : SlateView) : Record SeqVal → Except String (Record SeqVal) :=
  perKeyCall (svPerKey st.slate_size) st.keys

structure FixedLengthSequenceDenseNormalization (ν : Type) : Type where
  fixed_length_sequences : FixedLengthSequences
  dense_normalization : DenseNormalization ν
  slate_view : SlateView

/-- Constructor of the composite: derives the destination field names
as the source name followed by a colon and the sequence id, passes them
as the to_keys of FixedLengthSequences and as the keys of both
DenseNormalization and SlateView, and leaves the slate size at the
dummy value -1 that the call overrides. -/
def flsdnInit {ν : Type} (keys : List String) (sequence_id : Nat)
    (normalization_data : ν) (expected_length : Option ℤ) :
    Except String (FixedLengthSequenceDenseNormalization ν) :=
  let to_keys := keys.map (fun k => k ++ ":" ++ toString sequence_id)
  match flsInit keys sequence_id expected_length (some to_keys) with
  | .ok fls =>
    .ok ⟨fls, denseNormalizationInit to_keys normalization_data,
         ⟨to_keys, some (-1)⟩⟩
  | .error e => .error e

/-- Call method of the composite: fixed-length extraction, then dense
normalization, then the slate view whose slate size is taken from the
stride the embedded FixedLengthSequences instance has inferred. -/
def flsdnCall {ν : Type}
    (applyPre : PreprocessorObj ν → List (List ℚ) → List (List ℚ) → List (List ℚ))
    (st : FixedLengthSequenceDenseNormalization ν) (data : Record SeqVal) :
    Except String (FixedLengthSequenceDenseNormalization ν × Record SeqVal) :=
  match flsCall st.fixed_length_sequences data with
  | .error e => .error e
  | .ok (fls2, d1) =>
    match dnCall applyPre st.dense_normalization d1 with
    | .error e => .error e
    | .ok (dn2, d2) =>
      let sv2 : SlateView := { st.slate_view with slate_size := fls2.expected_length }
      match svCall sv2 d2 with
      | .error e => .error e
      | .ok d3 => .ok (⟨fls2, dn2, sv2⟩, d3)

theorem flsStep_shape (sid : Nat) (cached : Option ℤ) (key tk : String)
    (d : Record SeqVal) (c2 : Option ℤ) (d2 : Record SeqVal)
    (h : flsStep sid cached key tk d = .ok (c2, d2)) :
    ∃ vp, d2 = dset d tk (SeqVal.vp vp) := by
  unfold flsStep at h
  split at h
  · split at h
    · split at h
      · cases h
      · split at h
        · injection h with h
          injection h with h1 h2
          exact ⟨_, h2.symm⟩
        · cases h
    · cases h
  · cases h
  · cases h

theorem flsLoop_frame (sid : Nat) (pairs : List (String × String)) :
    ∀ (cached : Option ℤ) (d : Record SeqVal) (c2 : Option ℤ)
    (d2 : Record SeqVal),
    flsLoop sid pairs cached d = .ok (c2, d2) →
    ∀ j, (∀ p ∈ pairs, j ≠ p.2) → dget d2 j = dget d j := by
  induction pairs with
  | nil =>
    intro cached d c2 d2 h j _
    simp only [flsLoop] at h
    injection h with h
    injection h with h1 h2
    rw [h2]
  | cons p rest ih =>
    intro cached d c2 d2 h j hj
    obtain ⟨key, tk⟩ := p
    simp only [flsLoop] at h
    split at h
    · rename_i c1 d1 hstep
      obtain ⟨vp, hd1⟩ := flsStep_shape sid cached key tk d c1 d1 hstep
      have hjr : ∀ q ∈ rest, j ≠ q.2 :=
        fun q hq => hj q (List.mem_cons_of_mem _ hq)
      have hjtk : j ≠ tk := hj (key, tk) (by simp)
      rw [ih _ _ _ _ h j hjr, hd1, dget_dset_ne _ _ _ _ hjtk]
    · cases h

theorem perKeyCall_post {α : Type} (f : α → Option α) (P : α → Prop)
    (hf : ∀ v v2, f v = some v2 → P v2) (ks : List String) :
    ∀ (d d2 : Record α), perKeyCall f ks d = .ok d2 →
    ∀ k ∈ ks, ∃ v2, dget d2 k = some v2 ∧ P v2 := by
  induction ks with
  | nil => intro d d2 _ k hk; cases hk
  | cons a rest ih =>
    intro d d2 h k hk
    simp only [perKeyCall] at h
    split at h
    · cases h
    · rename_i v hv
      split at h
      · cases h
      · rename_i v2 hv2
        rcases List.mem_cons.mp hk with hk0 | hkr
        · subst hk0
          by_cases hin : k ∈ rest
          · exact ih _ _ h k hin
          · refine ⟨v2, ?_, hf v v2 hv2⟩
            rw [perKeyCall_frame f rest k _ _ hin h, dget_dset_self]
        · exact ih _ _ h k hkr

/-- C9: when the composite is built, the FixedLengthSequences stage has
to_keys of the form field:sequence_id distinct from the source keys; a
successful run of the composite leaves every source field bound to its
original ragged value in the output record, while the derived
field:sequence_id keys hold the slate-shaped normalized tensors. -/
theorem C9_sources_preserved {ν : Type} (keys : List String) (sid : Nat)
    (nd : ν) (elen : Option ℤ)
    (applyPre : PreprocessorObj ν → List (List ℚ) → List (List ℚ) → List (List ℚ))
    (st st2 : FixedLengthSequenceDenseNormalization ν)
    (d d3 : Record SeqVal)
    (hinit : flsdnInit keys sid nd elen = .ok st)
    (hdisj : ∀ k ∈ keys, (k ++ ":" ++ toString sid) ∉ keys)
    (hok : flsdnCall applyPre st d = .ok (st2, d3)) :
    ∀ k ∈ keys, dget d3 k = dget d k
      ∧ ∃ t, dget d3 (k ++ ":" ++ toString sid) = some (.slate t) := by
  have hlen : (keys.map (fun k => k ++ ":" ++ toString sid)).length = keys.length := by
    simp
  simp only [flsdnInit, flsInit, Option.getD] at hinit
  rw [if_pos hlen] at hinit
  injection hinit with hinit
  set to_keys := keys.map (fun k => k ++ ":" ++ toString sid) with hto
  have hst : st = ⟨⟨keys, sid, to_keys, elen⟩,
      denseNormalizationInit to_keys nd, ⟨to_keys, some (-1)⟩⟩ := hinit.symm
  -- membership facts about the derived key names
  have hmemto : ∀ k ∈ keys, (k ++ ":" ++ toString sid) ∈ to_keys := by
    intro k hk
    exact List.mem_map_of_mem _ hk
  have hnotto : ∀ k ∈ keys, k ∉ to_keys := by
    intro k hk hmem
    rcases List.mem_map.mp hmem with ⟨k0, hk0, hk0e⟩
    exact hdisj k0 hk0 (hk0e ▸ hk)
  -- unfold the composite call
  simp only [flsdnCall] at hok
  split at hok
  · cases hok
  · rename_i fls2 d1 hfls
    split at hok
    · cases hok
    · rename_i dn2 d2 hdn
      split at hok
      · cases hok
      · rename_i d3x hsv
        injection hok with hok
        injection hok with hok1 hok2
        rw [← hok2]
        intro k hk
        have hktk : k ∉ to_keys := hnotto k hk
        -- frame through the three stages
        have h1 : dget d1 k = dget d k := by
          rw [hst] at hfls
          simp only [flsCall] at hfls
          split at hfls
          · rename_i c2x d1x hloop
            injection hfls with hfls
            injection hfls with hf1 hf2
            subst hf2
            refine flsLoop_frame sid _ _ _ _ _ hloop k ?_
            intro p hp he
            have := (List.of_mem_zip hp).2
            exact hktk (he ▸ this)
          · cases hfls
        have h2 : dget d2 k = dget d1 k := by
          simp only [dnCall] at hdn
          split at hdn
          · rename_i d2x hper
            injection hdn with hdn
            injection hdn with hg1 hg2
            subst hg2
            exact perKeyCall_frame _ _ _ _ _ (by rw [hst]; exact hktk) hper
          · cases hdn
        have h3 : dget d3x k = dget d2 k := by
          refine perKeyCall_frame _ _ _ _ _ ?_ hsv
          rw [hst]
          exact hktk
        refine ⟨by rw [h3, h2, h1], ?_⟩
        -- the derived key holds a slate value
        have hpost := perKeyCall_post (svPerKey (fls2.expected_length))
          (fun v2 => ∃ t, v2 = SeqVal.slate t) ?_ _ _ _ hsv
          (k ++ ":" ++ toString sid) ?_
        · obtain ⟨v2, hv2, t, ht⟩ := hpost
          exact ⟨t, by rw [hv2, ht]⟩
        · intro v v2 hv
          cases v with
          | dense rows =>
            simp only [svPerKey] at hv
            split at hv
            · split at hv
              · injection hv with hv
                exact ⟨chunkRows _ rows, hv.symm⟩
              · cases hv
            · cases hv
          | ragged m => cases hv
          | vp x => cases hv
          | slate x => cases hv
        · rw [hst]
          exact hmemto k hk

/-- Payload of the composite witness: a ragged sequence of two
sub-sequences of two steps each, one feature per step. -/
def vp9Ex : VPData :=
  ⟨[[some 1], [some 2], [some 3], [some 4]], [[1], [1], [1], [1]]⟩

/-- Input record of the composite witness. -/
def rec9Ex : Record SeqVal := [("s", .ragged [(1, ([0, 2], vp9Ex))])]

/-- Composite instance of the witness, as flsdnInit builds it. -/
def st9Ex : FixedLengthSequenceDenseNormalization Nat :=
  ⟨⟨["s"], 1, ["s:1"], none⟩, ⟨["s:1"], 0, none⟩, ⟨["s:1"], some (-1)⟩⟩

/-- Output record of the composite witness: the raw ragged source field
is still present next to the derived slate-shaped field. -/
def out9Ex : Record SeqVal :=
  [("s", .ragged [(1, ([0, 2], vp9Ex))]),
   ("s:1", .slate [[[1], [2]], [[3], [4]]])]

/-- Witness for C9: a successful composite run on the example record
keeps the ragged source field s bound to its original value and adds the
derived field s:1 holding a slate tensor. -/
theorem C9_sources_preserved_witness :
    dget out9Ex "s" = dget rec9Ex "s"
    ∧ ∃ t, dget out9Ex ("s" ++ ":" ++ toString 1) = some (SeqVal.slate t) :=
  C9_sources_preserved ["s"] 1 0 none (fun _ v _ => v) st9Ex
    ⟨⟨["s"], 1, ["s:1"], some 2⟩, ⟨["s:1"], 0, some ⟨0⟩⟩, ⟨["s:1"], some 2⟩⟩
    rec9Ex out9Ex rfl (by decide) rfl "s" (by decide)

end ReAgent
